import Mathlib

/-!
Verification of the sacred_geometry search-and-evaluation core (src/sg.go).

The Go source is shallowly embedded: every definition below mirrors a Go
function of the repository.  Machine `int` values are modelled as `Int`
(the dice values and targets are tiny, far from 64-bit wraparound), Go
slices as `List`, and in-place slice mutation as explicit state passing.
A Go function that can panic (out-of-range index) is modelled with an
`Option` result where `none` is the panic.

Embedded functions (names follow src/sg.go):
  * `evalExpression`        (sg.go lines 105-139)
  * `findCombinationToPrime` (sg.go lines 141-163, split into the mask
     loop `searchMasks`, the permutation loop `searchPerms` and the
     operator loop `searchOps`, plus the inline subset builder
     `maskSubset`)
  * `permutations`          (sg.go lines 165-186; the in-place Heap-style
     recursion is state-passed: `permHelper` returns the emitted
     permutations together with the final contents of the argument array)
  * `combinations`          (sg.go lines 188-199)
  * the result-collection loop of `main` (sg.go lines 624-647):
    `collectResults` consumes the channel contents in arrival order.

The standard-precedence re-parser used by the parenthesization claims is
built from the spec's words: a character tokenizer (`tokAux`) and an
operator-precedence (shunting-yard) evaluator (`runToks`, `evalToks`)
with `*`,`/` binding tighter than `+`,`-`, equal precedence associating
left, and truncating integer division (`Int.tdiv`, Go's `/` semantics).
-/

/-! ### Decimal rendering (Go `fmt.Sprintf("%d", n)`) -/

/-- The character of a decimal digit. -/
def digitChar (d : Nat) : Char := Char.ofNat (48 + d)

/-- Little-endian decimal digits of `n`; the fuel is structural only. -/
def natDigitsRev (fuel n : Nat) : List Nat :=
  match fuel with
  | 0 => []
  | f + 1 => if n < 10 then [n] else n % 10 :: natDigitsRev f (n / 10)

/-- Decimal characters of a natural number, most significant first. -/
def natChars (n : Nat) : List Char :=
  ((natDigitsRev (n + 1) n).reverse).map digitChar

/-- Decimal rendering of a machine integer, as Go's `%d` verb prints it. -/
def intStr (i : Int) : String :=
  if i < 0 then ⟨'-' :: natChars i.natAbs⟩ else ⟨natChars i.toNat⟩

/-! ### The left-to-right evaluator, sg.go lines 105-139 -/

/-- The string update of one evaluation step (sg.go 118-122): wrap the
expression so far in parentheses when the previous operator was additive
and the incoming one multiplicative, then append the operator and the
operand. -/
def nextExpr (expr op prevOp : String) (n : Int) : String :=
  if (prevOp = "+" ∨ prevOp = "-") ∧ (op = "*" ∨ op = "/") then
    "(" ++ expr ++ ") " ++ op ++ " " ++ intStr n
  else
    expr ++ " " ++ op ++ " " ++ intStr n

/-- Loop body of `evalExpression` (sg.go 111-137).  The accumulator
`acc` is Go's `result`, `expr` the rendered string, `prevOp` the
operator of the previous step (`"+"` on the first step).  `none` models
the index-out-of-range panic of `ops[i-1]` when the operator slice is
too short. -/
def evalLoop (acc : Int) (expr : String) (prevOp : String) :
    List Int → List String → Option (Int × String)
  | [], _ => some (acc, expr)
  | _ :: _, [] => none
  | n :: ns, op :: ops =>
    let expr' := nextExpr expr op prevOp n
    if op = "+" then evalLoop (acc + n) expr' op ns ops
    else if op = "-" then evalLoop (acc - n) expr' op ns ops
    else if op = "*" then evalLoop (acc * n) expr' op ns ops
    else if op = "/" then
      if n ≠ 0 then evalLoop (Int.tdiv acc n) expr' op ns ops
      else some (0, "")
    else evalLoop acc expr' op ns ops

/-- `evalExpression` (sg.go 105-139): strict left-to-right evaluation of
`nums` under `ops`, together with the parenthesized rendering. -/
def evalExpression (nums : List Int) (ops : List String) :
    Option (Int × String) :=
  match nums with
  | [] => some (0, "")
  | n :: ns => evalLoop n (intStr n) "+" ns ops

/-- Does the evaluation loop abort on a zero divisor (sg.go 130-135)
before either finishing or running out of operators? -/
def divHitLoop : List Int → List String → Bool
  | [], _ => false
  | _ :: _, [] => false
  | n :: ns, op :: ops =>
    if op = "/" ∧ n = 0 then true else divHitLoop ns ops

/-- Does `evalExpression nums ops` abort on a division by zero? -/
def divZeroHit (nums : List Int) (ops : List String) : Bool :=
  match nums with
  | [] => false
  | _ :: ns => divHitLoop ns ops

/-! ### Operator combinations, sg.go lines 188-199 -/

/-- `combinations` (sg.go 188-199): all length-`n` sequences over
`elements`, first position varying slowest, exactly as the Go nested
loops append them. -/
def combinations : Nat → List String → List (List String)
  | 0, _ => [[]]
  | n + 1, elements =>
    elements.flatMap fun e => (combinations n elements).map fun c => e :: c

/-- The operator list `operations` of sg.go line 142. -/
def opsList : List String := ["+", "-", "*", "/"]

/-! ### Permutations, sg.go lines 165-186

Go's `permutations` runs an in-place Heap-style recursion over the
argument slice, copying the array into the result at each leaf and
swapping elements between recursive calls (the swap also happens after
the last iteration of each loop).  The mutation is modelled by passing
the array state through and returning it alongside the emissions. -/

/-- Go's parallel assignment `arr[i], arr[j] = arr[j], arr[i]`. -/
def listSwap (l : List Int) (i j : Nat) : List Int :=
  (l.set i (l.getD j 0)).set j (l.getD i 0)

/-- The `for i := 0; i < n; i++` loop of the helper (sg.go 174-181):
`step` is the recursive call at `n-1`, `is` the remaining loop indices.
Returns the emissions of the loop and the final array state. -/
def permLoop (step : List Int → List (List Int) × List Int) (n : Nat) :
    List Nat → List Int → List (List Int) × List Int
  | [], arr => ([], arr)
  | i :: is, arr =>
    let r := step arr
    let arr2 := if n % 2 = 1 then listSwap r.2 0 (n - 1)
                else listSwap r.2 i (n - 1)
    let rest := permLoop step n is arr2
    (r.1 ++ rest.1, rest.2)

/-- The helper closure of `permutations` (sg.go 168-183), with the array
state made explicit: first component is `res`, second the contents of
the argument slice after the call. -/
def permHelper : Nat → List Int → List (List Int) × List Int
  | 0, arr => ([], arr)
  | 1, arr => ([arr], arr)
  | n + 2, arr => permLoop (permHelper (n + 1)) (n + 2) (List.range (n + 2)) arr

/-- `permutations` (sg.go 165-186): the emitted permutation list. -/
def permutations (nums : List Int) : List (List Int) :=
  (permHelper nums.length nums).1

/-- The contents of the argument slice of `permutations` after the call
returns (the in-place algorithm mutates its input). -/
def permutationsFinalArg (nums : List Int) : List Int :=
  (permHelper nums.length nums).2

/-! ### The search driver, sg.go lines 141-163 -/

/-- The inline subset builder of `findCombinationToPrime` (sg.go
145-150): the values `dice[j]` for ascending `j` with bit `j` of the
mask set. -/
def maskSubset (dice : List Int) (mask : Nat) : List Int :=
  ((List.range dice.length).filter fun j => mask &&& (1 <<< j) != 0).map
    fun j => dice.getD j 0

/-- The innermost loop (sg.go 154-159): try each operator sequence on
the fixed permutation `p`; `some none` is exhaustion, `some (some e)` a
hit, `none` a panic inside `evalExpression`. -/
def searchOps (p : List Int) (prime : Int) :
    List (List String) → Option (Option String)
  | [] => some none
  | ops :: rest =>
    match evalExpression p ops with
    | none => none
    | some (r, e) =>
      if r = prime then some (some e) else searchOps p prime rest

/-- The permutation loop (sg.go 152-160). -/
def searchPerms (prime : Int) :
    List (List Int) → Option (Option String)
  | [] => some none
  | p :: ps =>
    match searchOps p prime (combinations (p.length - 1) opsList) with
    | none => none
    | some (some e) => some (some e)
    | some none => searchPerms prime ps

/-- The subset-mask loop (sg.go 144-161). -/
def searchMasks (dice : List Int) (prime : Int) :
    List Nat → Option (Option String)
  | [] => some none
  | m :: ms =>
    match searchPerms prime (permutations (maskSubset dice m)) with
    | none => none
    | some (some e) => some (some e)
    | some none => searchMasks dice prime ms

/-- `findCombinationToPrime` (sg.go 141-163).  The mask runs over
`1, …, 2^n - 1` exactly as `for i := 1; i < (1 << n); i++` does. -/
def findCombinationToPrime (dice : List Int) (prime : Int) :
    Option (String × Bool) :=
  match searchMasks dice prime (List.range' 1 (2 ^ dice.length - 1)) with
  | none => none
  | some (some e) => some (e, true)
  | some none => some ("", false)

/-- The subset sequence (mask order 1..2^N-1) that the mask loop of
`findCombinationToPrime` walks. -/
def diceSubsets (dice : List Int) : List (List Int) :=
  (List.range' 1 (2 ^ dice.length - 1)).map (maskSubset dice)

/-- The flattened candidate sequence of the search: subsets in mask
order, then permutations in emission order, then operator sequences in
`combinations` order. -/
def allCandidates (dice : List Int) : List (List Int × List String) :=
  (List.range' 1 (2 ^ dice.length - 1)).flatMap fun m =>
    (permutations (maskSubset dice m)).flatMap fun p =>
      (combinations (p.length - 1) opsList).map fun ops => (p, ops)

/-- Does candidate `(p, ops)` evaluate to `prime`?  Returns the rendered
expression on a hit. -/
def matchRes (prime : Int) (p : List Int) (ops : List String) :
    Option String :=
  (evalExpression p ops).bind fun re =>
    if re.1 = prime then some re.2 else none

/-- The first hit in the flattened candidate order. -/
def firstHit (dice : List Int) (prime : Int) : Option String :=
  (allCandidates dice).findSome? fun c => matchRes prime c.1 c.2

/-! ### The concurrent dispatcher of `main`, sg.go lines 624-647 -/

/-- One per-prime search result (the `Result` struct, sg.go 201-205). -/
structure Result where
  Prime : Int
  Expression : String
  Found : Bool
deriving DecidableEq, Repr

/-- The `Result` the goroutine for prime `p` sends on the channel
(sg.go 629-633).  `findCombinationToPrime` never panics (proved below),
so the `getD` default is unreachable. -/
def resultFor (dice : List Int) (p : Int) : Result :=
  let ef := (findCombinationToPrime dice p).getD ("", false)
  ⟨p, ef.1, ef.2⟩

/-- The collection loop of `main` (sg.go 639-647) over the channel
contents in arrival order: `success` starts `true`; on the first
not-found result it is set `false` and the loop breaks; found results
are appended to `expressions` in arrival order. -/
def collectResults : List Result → Bool × List Result
  | [] => (true, [])
  | r :: rs =>
    if r.Found then
      let rest := collectResults rs
      (rest.1, r :: rest.2)
    else (false, [])

/-! ### Standard-precedence re-parsing (from the spec, §4.4 and §8)

The spec's parenthesization law talks about re-parsing the rendered
string "with standard operator precedence".  The grammar is the usual
one: `*` and `/` bind tighter than `+` and `-`, equal precedence
associates to the left, parentheses group, division truncates toward
zero.  It is evaluated by the classical operator-precedence
(shunting-yard) machine: a value stack and an operator stack where an
incoming operator first pops every stacked operator of precedence at
least its own (left associativity), and `(` pushes a marker that `)`
pops back to. -/

/-- Binary operators of the expression grammar. -/
inductive OpK where
  | plus | minus | star | slash
deriving DecidableEq, Repr

/-- Tokens: integer literals, operators, parentheses. -/
inductive Tok where
  | num (n : Int)
  | op (o : OpK)
  | lparen
  | rparen
deriving DecidableEq, Repr

/-- Precedence: multiplicative above additive. -/
def prec : OpK → Nat
  | .plus => 1
  | .minus => 1
  | .star => 2
  | .slash => 2

/-- Semantics of a binary operator; `/` truncates toward zero. -/
def applyK (o : OpK) (a b : Int) : Int :=
  match o with
  | .plus => a + b
  | .minus => a - b
  | .star => a * b
  | .slash => Int.tdiv a b

/-- A pending signed decimal literal of the tokenizer. -/
def flushP : Option (Bool × Nat) → List Tok
  | none => []
  | some (sg, v) => [Tok.num (if sg then (v : Int) else -(v : Int))]

/-- Is the next character a digit?  Used for the sign lookahead: a `-`
directly attached to digits is a negative literal (Go renders negative
operands that way), while a free-standing `-` is the binary operator. -/
def lookDigit : List Char → Bool
  | [] => false
  | c :: _ => c.isDigit

/-- Character-level tokenizer.  `p` is the decimal literal being read;
whitespace separates tokens; any other character fails. -/
def tokAux : Option (Bool × Nat) → List Char → Option (List Tok)
  | p, [] => some (flushP p)
  | p, c :: cs =>
    if c.isDigit then
      match p with
      | some (sg, v) => tokAux (some (sg, 10 * v + (c.toNat - 48))) cs
      | none => tokAux (some (true, c.toNat - 48)) cs
    else if c = '-' then
      if lookDigit cs then
        (tokAux (some (false, 0)) cs).map fun ts => flushP p ++ ts
      else
        (tokAux none cs).map fun ts => flushP p ++ (Tok.op OpK.minus :: ts)
    else if c = ' ' then
      (tokAux none cs).map fun ts => flushP p ++ ts
    else if c = '(' then
      (tokAux none cs).map fun ts => flushP p ++ (Tok.lparen :: ts)
    else if c = ')' then
      (tokAux none cs).map fun ts => flushP p ++ (Tok.rparen :: ts)
    else if c = '+' then
      (tokAux none cs).map fun ts => flushP p ++ (Tok.op OpK.plus :: ts)
    else if c = '*' then
      (tokAux none cs).map fun ts => flushP p ++ (Tok.op OpK.star :: ts)
    else if c = '/' then
      (tokAux none cs).map fun ts => flushP p ++ (Tok.op OpK.slash :: ts)
    else none

/-- Pop-and-apply stacked operators of precedence ≥ `prec o` (left
associativity); stops at a parenthesis marker (`none`) or empty stack. -/
def popGE (o : OpK) :
    List Int → List (Option OpK) → Option (List Int × List (Option OpK))
  | vs, some o' :: os =>
    if prec o ≤ prec o' then
      match vs with
      | b :: a :: vs' => popGE o (applyK o' a b :: vs') os
      | _ => none
    else some (vs, some o' :: os)
  | vs, os => some (vs, os)

/-- Pop-and-apply down to the nearest parenthesis marker, removing it. -/
def popToMark :
    List Int → List (Option OpK) → Option (List Int × List (Option OpK))
  | vs, none :: os => some (vs, os)
  | vs, some o :: os =>
    match vs with
    | b :: a :: vs' => popToMark (applyK o a b :: vs') os
    | _ => none
  | _, [] => none

/-- Pop-and-apply the whole stack at end of input; an unmatched `(`
marker is a parse error. -/
def popAll : List Int → List (Option OpK) → Option (List Int)
  | vs, [] => some vs
  | _, none :: _ => none
  | vs, some o :: os =>
    match vs with
    | b :: a :: vs' => popAll (applyK o a b :: vs') os
    | _ => none

/-- One step of the operator-precedence machine. -/
def stepTok (st : List Int × List (Option OpK)) (t : Tok) :
    Option (List Int × List (Option OpK)) :=
  match t with
  | Tok.num n => some (n :: st.1, st.2)
  | Tok.lparen => some (st.1, none :: st.2)
  | Tok.rparen => popToMark st.1 st.2
  | Tok.op o => (popGE o st.1 st.2).map fun r => (r.1, some o :: r.2)

/-- Run the machine over a token list. -/
def runToks (st : List Int × List (Option OpK)) :
    List Tok → Option (List Int × List (Option OpK))
  | [] => some st
  | t :: ts => (stepTok st t).bind fun st' => runToks st' ts

/-- Evaluate a token list as an arithmetic expression under standard
precedence; `none` on any parse error. -/
def evalToks (ts : List Tok) : Option Int :=
  (runToks ([], []) ts).bind fun st =>
    (popAll st.1 st.2).bind fun vs =>
      match vs with
      | [v] => some v
      | _ => none

/-- Parse a string under standard operator precedence and evaluate it. -/
def parseEval (s : String) : Option Int :=
  (tokAux none s.data).bind evalToks

/-! ### Proof-support definitions -/

/-- Is the top of the operator stack a parenthesis marker (or the stack
empty)?  Below such a top, the machine never reaches. -/
def topMark : List (Option OpK) → Bool
  | [] => true
  | none :: _ => true
  | some _ :: _ => false

/-- Machine invariant tying a token list to the running left-to-right
accumulator.  Started from any base stacks whose operator top is a
marker or empty, the machine maps the tokens to either the single value
`acc` pushed (only while no multiplicative tail is pending), or two
values and one pending operator combining to `acc`; `mult` records
whether that pending operator is multiplicative, which mirrors the
renderer's `previousOp` test. -/
def MInv (ts : List Tok) (acc : Int) (mult : Bool) : Prop :=
  ∀ vs os, topMark os = true →
    (runToks (vs, os) ts = some (acc :: vs, os) ∧ mult = false) ∨
    (∃ a b o, runToks (vs, os) ts = some (b :: a :: vs, some o :: os) ∧
      applyK o a b = acc ∧ ((prec o = 2) ↔ mult = true))

/-- Rotate the first `n` entries of `l` one step to the right (last of
the block to the front); entries from position `n` on are unchanged.
This is the net effect of one odd-level loop iteration of `permHelper`,
and also the final state of an even-level call. -/
def rotFront (n : Nat) (l : List Int) : List Int :=
  (l.take n).rotate (n - 1) ++ l.drop n

/-- The contents of the argument array after `permHelper n` returns:
unchanged for `n ≤ 1` and odd `n`, rotated on the first `n` entries for
even `n ≥ 2`. -/
def permFinal (n : Nat) (l : List Int) : List Int :=
  if n % 2 = 0 ∧ 2 ≤ n then rotFront n l else l

/-! ## Theorems -/

/-! ### Generic list helpers -/

theorem flatMap_length_const {α β : Type} (l : List α) (f : α → List β)
    (c : Nat) (h : ∀ x ∈ l, (f x).length = c) :
    (l.flatMap f).length = l.length * c := by
  induction l with
  | nil => simp
  | cons a l ih =>
    simp only [List.flatMap_cons, List.length_append, List.length_cons]
    rw [h a (by simp), ih (fun x hx => h x (by simp [hx]))]
    ring

theorem findSome?_flatMap {α β γ : Type} (l : List α) (f : α → List β)
    (g : β → Option γ) :
    (l.flatMap f).findSome? g = l.findSome? fun a => (f a).findSome? g := by
  induction l with
  | nil => simp
  | cons a l ih =>
    simp only [List.flatMap_cons, List.findSome?_append, List.findSome?_cons]
    cases h : (f a).findSome? g with
    | none => simpa [h, Option.or] using ih
    | some v => simp [h, Option.or]

theorem findSome?_map {α β γ : Type} (l : List α) (f : α → β)
    (g : β → Option γ) :
    (l.map f).findSome? g = l.findSome? fun a => g (f a) := by
  induction l with
  | nil => simp
  | cons a l ih =>
    simp only [List.map_cons, List.findSome?_cons]
    cases h : g (f a) <;> simp [h, ih]

theorem findSome?_filter_of_none {α β : Type} (l : List α) (q : α → Bool)
    (g : α → Option β) (h : ∀ c ∈ l, q c = false → g c = none) :
    l.findSome? g = (l.filter q).findSome? g := by
  induction l with
  | nil => simp
  | cons a l ih =>
    have ih' := ih fun c hc => h c (by simp [hc])
    cases hq : q a with
    | true => simp [List.filter_cons, hq, List.findSome?_cons, ih']
    | false =>
      have : g a = none := h a (by simp) hq
      simp [List.filter_cons, hq, List.findSome?_cons, this, ih']

theorem set_getD_self : ∀ (l : List Int) (i : Nat), l.set i (l.getD i 0) = l := by
  intro l
  induction l with
  | nil => intro i; simp
  | cons a l ih =>
    intro i
    cases i with
    | zero => simp [List.getD]
    | succ j => simpa [List.getD] using ih j

/-! ### C6: operator combinations -/

theorem combinations_length (k : Nat) (els : List String) :
    (combinations k els).length = els.length ^ k := by
  induction k with
  | zero => simp [combinations]
  | succ k ih =>
    simp only [combinations]
    rw [flatMap_length_const els _ (els.length ^ k)
      (by intro e _; simp [List.length_map, ih])]
    ring

theorem combinations_mem (k : Nat) (els : List String) :
    ∀ l ∈ combinations k els, l.length = k ∧ ∀ s ∈ l, s ∈ els := by
  induction k with
  | zero =>
    intro l hl
    simp only [combinations, List.mem_singleton] at hl
    subst hl; simp
  | succ k ih =>
    intro l hl
    simp only [combinations, List.mem_flatMap, List.mem_map] at hl
    obtain ⟨e, he, c, hc, rfl⟩ := hl
    obtain ⟨hlen, hmem⟩ := ih c hc
    refine ⟨by simp [hlen], ?_⟩
    intro s hs
    rcases List.mem_cons.mp hs with rfl | hs
    · exact he
    · exact hmem s hs

/-- C6: `combinations k ["+","-","*","/"]` returns exactly `4^k`
sequences, each of length `k` with all elements among the four
operators, and for `k = 0` exactly the empty sequence. -/
theorem C6_combinations_counts (k : Nat) :
    (combinations k opsList).length = 4 ^ k ∧
    ((combinations k opsList).all fun l =>
      l.length == k && l.all fun s => opsList.contains s) = true ∧
    combinations 0 opsList = [[]] := by
  refine ⟨?_, ?_, rfl⟩
  · simpa [opsList] using combinations_length k opsList
  · rw [List.all_eq_true]
    intro l hl
    obtain ⟨hlen, hmem⟩ := combinations_mem k opsList l hl
    rw [Bool.and_eq_true, beq_iff_eq, List.all_eq_true]
    exact ⟨hlen, fun s hs => by
      simpa [List.contains, List.elem_eq_mem] using hmem s hs⟩

/-! ### C5: the subset enumeration -/

theorem maskSubset_testBit (dice : List Int) (m : Nat) :
    maskSubset dice m =
      ((List.range dice.length).filter fun j => Nat.testBit m j).map
        fun j => dice.getD j 0 := by
  unfold maskSubset
  congr 1
  apply List.filter_congr
  intro j _
  rw [Nat.shiftLeft_eq, one_mul, Nat.and_two_pow]
  cases h : m.testBit j <;> simp [h, Nat.pow_eq_zero]

/-- C5: the mask loop of `findCombinationToPrime` visits exactly the
`2^N - 1` subsets, in increasing order of the mask `1 … 2^N - 1`, bit
`j` of the mask selecting die `j`; each subset lists the selected dice
in original index order, and the selected index list is strictly
increasing (so no die index repeats). -/
theorem C5_subset_enumeration (dice : List Int) :
    (diceSubsets dice).length = 2 ^ dice.length - 1 ∧
    diceSubsets dice =
      (List.range (2 ^ dice.length - 1)).map (fun k => maskSubset dice (k + 1)) ∧
    (∀ m, maskSubset dice m =
      ((List.range dice.length).filter fun j => Nat.testBit m j).map
        fun j => dice.getD j 0) ∧
    (∀ m, List.Sorted (· < ·)
        ((List.range dice.length).filter fun j => Nat.testBit m j) ∧
      ((List.range dice.length).filter fun j => Nat.testBit m j).Nodup) := by
  refine ⟨by simp [diceSubsets], ?_, maskSubset_testBit dice, ?_⟩
  · unfold diceSubsets
    rw [List.range'_eq_map_range, List.map_map]
    apply List.map_congr_left
    intro k _
    simp [Nat.add_comm]
  · intro m
    have hs : List.Sorted (· < ·)
        ((List.range dice.length).filter fun j => Nat.testBit m j) :=
      (List.sorted_lt_range dice.length).sublist (List.filter_sublist _)
    exact ⟨hs, hs.nodup⟩


/-! ### C9: `permutations` mutates its argument -/

/-- C9: after `permutations` returns on a two-element slice with
distinct values, the argument slice holds the two values swapped, so it
differs from its pre-call contents. -/
theorem C9_permutations_mutates_arg (a b : Int) (h : a ≠ b) :
    permutationsFinalArg [a, b] ≠ [a, b] := by
  have hfin : permutationsFinalArg [a, b] = [b, a] := rfl
  rw [hfin]
  intro hc
  have h0 : b = a := by simpa using congrArg (fun l => l.getD 0 0) hc
  exact h h0.symm

theorem C9_witness : permutationsFinalArg [1, 2] ≠ [1, 2] :=
  C9_permutations_mutates_arg 1 2 (by decide)

/-! ### The evaluator on a zero divisor, and expression emptiness -/

theorem natDigitsRev_ne_nil (f n : Nat) : natDigitsRev (f + 1) n ≠ [] := by
  rw [natDigitsRev]
  split_ifs <;> simp

theorem natChars_ne_nil (n : Nat) : natChars n ≠ [] := by
  unfold natChars
  intro hc
  rw [List.map_eq_nil_iff, List.reverse_eq_nil_iff] at hc
  exact natDigitsRev_ne_nil n n hc

theorem intStr_data_ne_nil (i : Int) : (intStr i).data ≠ [] := by
  unfold intStr
  split_ifs <;> simp [natChars_ne_nil]

theorem nextExpr_data_ne_nil (ex op po : String) (n : Int) :
    (nextExpr ex op po n).data ≠ [] := by
  unfold nextExpr
  split_ifs <;> intro hc <;> simp [String.data_append] at hc

theorem divHit_evalLoop : ∀ (ns : List Int) (os : List String)
    (acc : Int) (ex po : String), divHitLoop ns os = true →
    evalLoop acc ex po ns os = some (0, "") := by
  intro ns
  induction ns with
  | nil => intro os acc ex po h; simp [divHitLoop] at h
  | cons n ns ih =>
    intro os acc ex po h
    cases os with
    | nil => simp [divHitLoop] at h
    | cons op os =>
      by_cases hop : op = "/" ∧ n = 0
      · obtain ⟨rfl, rfl⟩ := hop
        simp [evalLoop]
      · rw [divHitLoop, if_neg hop] at h
        rw [evalLoop]
        split_ifs with ha hb hc hd he <;>
          first
            | exact ih os _ _ _ h
            | exact absurd ⟨hd, not_not.mp he⟩ hop

theorem evalLoop_ne_empty : ∀ (ns : List Int) (os : List String)
    (acc : Int) (ex po : String) (r : Int) (e : String),
    ex.data ≠ [] → divHitLoop ns os = false →
    evalLoop acc ex po ns os = some (r, e) → e.data ≠ [] := by
  intro ns
  induction ns with
  | nil =>
    intro os acc ex po r e hex _ heval
    rw [evalLoop] at heval
    injection heval with h'
    injection h' with h1 h2
    rw [← h2]
    exact hex
  | cons n ns ih =>
    intro os acc ex po r e hex hdiv heval
    cases os with
    | nil => rw [evalLoop] at heval; exact absurd heval (by simp)
    | cons op os =>
      have hop : ¬ (op = "/" ∧ n = 0) := by
        intro hcond
        rw [divHitLoop, if_pos hcond] at hdiv
        exact absurd hdiv (by simp)
      rw [divHitLoop, if_neg hop] at hdiv
      rw [evalLoop] at heval
      split_ifs at heval with ha hb hc hd he <;>
        first
          | exact ih os _ _ _ r e (nextExpr_data_ne_nil ex op po n) hdiv heval
          | exact absurd ⟨hd, not_not.mp he⟩ hop

/-- C10: `evalExpression` returns the same pair `(0, "")` on an empty
operand list and on a zero-divisor abort; a completed evaluation of a
non-empty operand list always carries a non-empty expression string, so
only the expression distinguishes a genuine result of 0 from the two
degenerate cases. -/
theorem C10_zero_result_ambiguity (nums : List Int) (ops : List String) :
    (nums = [] → evalExpression nums ops = some (0, "")) ∧
    (divZeroHit nums ops = true → evalExpression nums ops = some (0, "")) ∧
    (nums ≠ [] → divZeroHit nums ops = false →
      ∀ r e, evalExpression nums ops = some (r, e) → e ≠ "") := by
  refine ⟨fun h => by subst h; rfl, fun h => ?_, fun hne hdiv r e heval => ?_⟩
  · cases nums with
    | nil => rfl
    | cons n ns =>
      rw [divZeroHit] at h
      exact divHit_evalLoop ns ops n (intStr n) "+" h
  · cases nums with
    | nil => exact absurd rfl hne
    | cons n ns =>
      rw [divZeroHit] at hdiv
      rw [evalExpression] at heval
      have hni := evalLoop_ne_empty ns ops n (intStr n) "+" r e
        (intStr_data_ne_nil n) hdiv heval
      intro hcon
      subst hcon
      exact hni rfl

theorem C10_witness :
    (evalExpression [1, 0] ["/"] = some (0, "")) ∧
    ("(5) * 2" : String) ≠ "" := by
  constructor
  · exact (C10_zero_result_ambiguity [1, 0] ["/"]).2.1 (by decide)
  · exact (C10_zero_result_ambiguity [5, 2] ["*"]).2.2 (by decide) (by decide)
      10 "(5) * 2" (by decide)

/-! ### C4 and C3: the result-collection loop of `main` -/

theorem collectResults_fst (rs : List Result) :
    (collectResults rs).1 = rs.all (·.Found) := by
  induction rs with
  | nil => rfl
  | cons r rs ih =>
    cases h : r.Found <;> simp [collectResults, h, ih]

theorem collectResults_snd (rs : List Result) :
    (collectResults rs).2 = rs.takeWhile (·.Found) := by
  induction rs with
  | nil => rfl
  | cons r rs ih =>
    cases h : r.Found <;> simp [collectResults, h, ih, List.takeWhile_cons]

/-- C4: for any channel arrival order (any permutation of the per-prime
results), the aggregate `success` flag computed by the collection loop
is `true` iff every prime's search reported `found = true`. -/
theorem C4_success_iff_all_found (dice : List Int) (primes : List Int)
    (rs : List Result) (h : rs.Perm (primes.map (resultFor dice))) :
    ((collectResults rs).1 = true ↔
      ∀ p ∈ primes, (resultFor dice p).Found = true) := by
  rw [collectResults_fst, List.all_eq_true]
  constructor
  · intro hall p hp
    exact hall _ (h.mem_iff.mpr (List.mem_map_of_mem _ hp))
  · intro hall r hr
    obtain ⟨p, hp, rfl⟩ := List.mem_map.mp (h.mem_iff.mp hr)
    exact hall p hp

theorem C4_witness :
    ((collectResults (([2, 3] : List Int).map (resultFor [2, 3]))).1 = true ↔
      ∀ p ∈ ([2, 3] : List Int), (resultFor [2, 3] p).Found = true) :=
  C4_success_iff_all_found [2, 3] [2, 3] _ (List.Perm.refl _)

/-- C3 fails on the code: with dice `[2, 3]` and primes `[2, 3]`, if the
goroutine for prime 3 completes first, the channel holds a legitimate
completion order (a permutation of the per-prime results) for which the
collection loop of `main` reports the primes as `[3, 2]` — not sorted
ascending.  (The README's "sorts the values" matches the claim; the
code never sorts.) -/
theorem C3_completion_order_not_sorted :
    ([resultFor [2, 3] 3, resultFor [2, 3] 2]).Perm
      (([2, 3] : List Int).map (resultFor [2, 3])) ∧
    (collectResults [resultFor [2, 3] 3, resultFor [2, 3] 2]).2.map
      (·.Prime) = [3, 2] ∧
    ¬ List.Sorted (· ≤ ·)
      ((collectResults [resultFor [2, 3] 3, resultFor [2, 3] 2]).2.map
        (·.Prime)) := by
  refine ⟨?_, by decide, ?_⟩
  · decide
  · intro hs
    rw [(by decide :
      (collectResults [resultFor [2, 3] 3, resultFor [2, 3] 2]).2.map
        (·.Prime) = ([3, 2] : List Int))] at hs
    exact absurd (List.rel_of_sorted_cons hs 2 (by simp)) (by decide)

/-! ### C2: the search driver finds the first match in enumeration order -/

theorem evalLoop_isSome : ∀ (ns : List Int) (os : List String)
    (acc : Int) (ex po : String), ns.length ≤ os.length →
    ∃ v, evalLoop acc ex po ns os = some v := by
  intro ns
  induction ns with
  | nil => intro os acc ex po _; exact ⟨(acc, ex), rfl⟩
  | cons n ns ih =>
    intro os acc ex po hlen
    cases os with
    | nil => simp at hlen
    | cons op os =>
      have hlen' : ns.length ≤ os.length := by simpa using hlen
      rw [evalLoop]
      split_ifs <;> first | exact ih os _ _ _ hlen' | exact ⟨(0, ""), rfl⟩

theorem evalExpression_isSome (p : List Int) (ops : List String)
    (h : p.length - 1 ≤ ops.length) : ∃ v, evalExpression p ops = some v := by
  cases p with
  | nil => exact ⟨(0, ""), rfl⟩
  | cons n ns =>
    rw [evalExpression]
    exact evalLoop_isSome ns ops n (intStr n) "+" (by simpa using h)

theorem searchOps_spec (p : List Int) (prime : Int) :
    ∀ l : List (List String), (∀ ops ∈ l, p.length - 1 ≤ ops.length) →
    searchOps p prime l =
      some (l.findSome? fun ops => matchRes prime p ops) := by
  intro l
  induction l with
  | nil => intro _; rfl
  | cons ops rest ih =>
    intro h
    obtain ⟨⟨r, e⟩, hv⟩ := evalExpression_isSome p ops (h ops (by simp))
    have hm : matchRes prime p ops = if r = prime then some e else none := by
      rw [matchRes, hv]; rfl
    by_cases hr : r = prime
    · simp [searchOps, hv, List.findSome?_cons, hm, hr]
    · simp [searchOps, hv, List.findSome?_cons, hm, hr,
        ih fun o ho => h o (by simp [ho])]

theorem searchPerms_spec (prime : Int) : ∀ ps : List (List Int),
    searchPerms prime ps =
      some (ps.findSome? fun p =>
        (combinations (p.length - 1) opsList).findSome? fun ops =>
          matchRes prime p ops) := by
  intro ps
  induction ps with
  | nil => rfl
  | cons p ps ih =>
    have hops := searchOps_spec p prime (combinations (p.length - 1) opsList)
      fun ops hmem => le_of_eq (combinations_mem _ _ ops hmem).1.symm
    cases hX : (combinations (p.length - 1) opsList).findSome?
        fun ops => matchRes prime p ops with
    | none => simp [searchPerms, hops, hX, ih, List.findSome?_cons]
    | some e => simp [searchPerms, hops, hX, List.findSome?_cons]

theorem searchMasks_spec (dice : List Int) (prime : Int) :
    ∀ ms : List Nat,
    searchMasks dice prime ms =
      some (ms.findSome? fun m =>
        (permutations (maskSubset dice m)).findSome? fun p =>
          (combinations (p.length - 1) opsList).findSome? fun ops =>
            matchRes prime p ops) := by
  intro ms
  induction ms with
  | nil => rfl
  | cons m ms ih =>
    have hp := searchPerms_spec prime (permutations (maskSubset dice m))
    cases hX : (permutations (maskSubset dice m)).findSome?
        fun p => (combinations (p.length - 1) opsList).findSome?
          fun ops => matchRes prime p ops with
    | none => simp [searchMasks, hp, hX, ih, List.findSome?_cons]
    | some e => simp [searchMasks, hp, hX, List.findSome?_cons]

theorem findCombinationToPrime_eq (dice : List Int) (prime : Int) :
    findCombinationToPrime dice prime =
      some (match firstHit dice prime with
            | some e => (e, true)
            | none => ("", false)) := by
  have hfh : firstHit dice prime =
      (List.range' 1 (2 ^ dice.length - 1)).findSome? fun m =>
        (permutations (maskSubset dice m)).findSome? fun p =>
          (combinations (p.length - 1) opsList).findSome? fun ops =>
            matchRes prime p ops := by
    unfold firstHit allCandidates
    rw [findSome?_flatMap]
    congr 1
    funext m
    rw [findSome?_flatMap]
    congr 1
    funext p
    rw [findSome?_map]
  unfold findCombinationToPrime
  rw [searchMasks_spec, ← hfh]
  cases firstHit dice prime <;> rfl

/-- C2: `findCombinationToPrime` returns `(expression, true)` for the
first candidate — subset-mask order, then permutation order, then
operator-sequence order — whose left-to-right evaluation result equals
the target (all later candidates are never consulted: the result is the
first hit of the flattened enumeration), and it returns `("", false)`
iff no candidate in the whole space evaluates to the target. -/
theorem C2_first_match_short_circuit (dice : List Int) (prime : Int) :
    findCombinationToPrime dice prime =
      some (match firstHit dice prime with
            | some e => (e, true)
            | none => ("", false)) ∧
    (findCombinationToPrime dice prime = some ("", false) ↔
      ∀ c ∈ allCandidates dice, matchRes prime c.1 c.2 = none) := by
  refine ⟨findCombinationToPrime_eq dice prime, ?_⟩
  rw [findCombinationToPrime_eq dice prime]
  cases hX : firstHit dice prime with
  | none =>
    simp only
    constructor
    · intro _
      unfold firstHit at hX
      exact List.findSome?_eq_none_iff.mp hX
    · intro _; trivial
  | some e =>
    simp only
    constructor
    · intro hcon
      have : (e, true) = (("" : String), false) := by
        injection hcon
      simp at this
    · intro hall
      unfold firstHit at hX
      obtain ⟨c, hc, hce⟩ := List.exists_of_findSome?_eq_some hX
      rw [hall c hc] at hce
      exact absurd hce (by simp)

/-! ### C8: division by zero rejects one candidate, not the search -/

/-- C8: a zero divisor makes the evaluation of that candidate abort at
once with the "no result" pair `(0, "")` (first conjunct), and — for a
non-zero target, in particular any prime — the search outcome is the
same as if every zero-divisor candidate were removed from the
enumeration: such candidates are simply skipped, never a failure of the
whole search (second conjunct). -/
theorem C8_div_zero_discarded (nums : List Int) (ops : List String)
    (dice : List Int) (prime : Int) :
    (divZeroHit nums ops = true → evalExpression nums ops = some (0, "")) ∧
    (prime ≠ 0 →
      findCombinationToPrime dice prime =
        some (match ((allCandidates dice).filter fun c =>
              !(divZeroHit c.1 c.2)).findSome?
                (fun c => matchRes prime c.1 c.2) with
          | some e => (e, true)
          | none => ("", false))) := by
  constructor
  · intro h
    cases nums with
    | nil => simp [divZeroHit] at h
    | cons n ns =>
      rw [divZeroHit] at h
      exact divHit_evalLoop ns ops n (intStr n) "+" h
  · intro hp
    have hfilter : (allCandidates dice).findSome?
        (fun c => matchRes prime c.1 c.2)
        = ((allCandidates dice).filter fun c =>
            !(divZeroHit c.1 c.2)).findSome?
              (fun c => matchRes prime c.1 c.2) := by
      apply findSome?_filter_of_none
      intro c _ hq
      obtain ⟨p1, ops1⟩ := c
      have hdz : divZeroHit p1 ops1 = true := by simpa using hq
      have heval : evalExpression p1 ops1 = some (0, "") := by
        cases p1 with
        | nil => simp [divZeroHit] at hdz
        | cons n ns =>
          rw [divZeroHit] at hdz
          exact divHit_evalLoop ns ops1 n (intStr n) "+" hdz
      show matchRes prime p1 ops1 = none
      rw [matchRes, heval]
      simp [Ne.symm hp]
    rw [findCombinationToPrime_eq dice prime]
    unfold firstHit
    rw [hfilter]

theorem C8_witness :
    (evalExpression [5, 0] ["/"] = some (0, "")) ∧
    (findCombinationToPrime [2, 3] 7 =
      some (match ((allCandidates [2, 3]).filter fun c =>
            !(divZeroHit c.1 c.2)).findSome?
              (fun c => matchRes 7 c.1 c.2) with
        | some e => (e, true)
        | none => ("", false))) :=
  ⟨(C8_div_zero_discarded [5, 0] ["/"] [2, 3] 7).1 (by decide),
   (C8_div_zero_discarded [5, 0] ["/"] [2, 3] 7).2 (by decide)⟩

/-! ### C1, part 1: tokenizing a rendered integer literal -/

theorem digitChar_isDigit (d : Nat) (h : d < 10) :
    (digitChar d).isDigit = true := by
  interval_cases d <;> rfl

theorem digitChar_toNat (d : Nat) (h : d < 10) :
    (digitChar d).toNat - 48 = d := by
  interval_cases d <;> rfl

theorem natDigitsRev_lt (fuel : Nat) : ∀ n, n < 10 ^ fuel →
    ∀ d ∈ natDigitsRev fuel n, d < 10 := by
  induction fuel with
  | zero => intro n h d hd; simp [natDigitsRev] at hd
  | succ f ih =>
    intro n h d hd
    rw [natDigitsRev] at hd
    split_ifs at hd with h10
    · rw [List.mem_singleton] at hd
      exact hd ▸ h10
    · rcases List.mem_cons.mp hd with rfl | hd'
      · exact Nat.mod_lt n (by norm_num)
      · refine ih (n / 10) ?_ d hd'
        rw [pow_succ] at h
        exact (Nat.div_lt_iff_lt_mul (by norm_num)).mpr h

theorem natDigitsRev_foldl (fuel : Nat) : ∀ n, n < 10 ^ fuel →
    (natDigitsRev fuel n).reverse.foldl (fun a d => 10 * a + d) 0 = n := by
  induction fuel with
  | zero => intro n h; simp [natDigitsRev]; omega
  | succ f ih =>
    intro n h
    rw [natDigitsRev]
    split_ifs with h10
    · simp
    · have hdiv : n / 10 < 10 ^ f := by
        rw [pow_succ] at h
        exact (Nat.div_lt_iff_lt_mul (by norm_num)).mpr h
      rw [List.reverse_cons, List.foldl_append, ih (n / 10) hdiv]
      simp
      omega

theorem tokAux_digits : ∀ (ds : List Nat), (∀ d ∈ ds, d < 10) →
    ∀ (sg : Bool) (v : Nat),
    tokAux (some (sg, v)) (ds.map digitChar) =
      some (flushP (some (sg, ds.foldl (fun a d => 10 * a + d) v))) := by
  intro ds
  induction ds with
  | nil => intro _ sg v; rfl
  | cons d ds ih =>
    intro h sg v
    have hd : d < 10 := h d (by simp)
    rw [List.map_cons]
    rw [show tokAux (some (sg, v)) (digitChar d :: ds.map digitChar) =
      tokAux (some (sg, 10 * v + ((digitChar d).toNat - 48)))
        (ds.map digitChar) by
        simp [tokAux, digitChar_isDigit d hd]]
    rw [digitChar_toNat d hd, ih (fun x hx => h x (by simp [hx])) sg _,
      List.foldl_cons]

theorem natChars_eq_map (m : Nat) :
    natChars m = ((natDigitsRev (m + 1) m).reverse).map digitChar := rfl

theorem natChars_bound (m : Nat) : m < 10 ^ (m + 1) :=
  lt_of_lt_of_le (Nat.lt_pow_self (by norm_num) m)
    (Nat.pow_le_pow_right (by norm_num) (Nat.le_succ m))

theorem tokAux_natChars_pending (m : Nat) (sg : Bool) :
    tokAux (some (sg, 0)) (natChars m) =
      some [Tok.num (if sg then (m : Int) else -(m : Int))] := by
  rw [natChars_eq_map,
    tokAux_digits _ (fun d hd => natDigitsRev_lt (m + 1) m (natChars_bound m)
      d (List.mem_reverse.mp hd)) sg 0,
    natDigitsRev_foldl (m + 1) m (natChars_bound m)]
  rfl

theorem lookDigit_natChars (m : Nat) : lookDigit (natChars m) = true := by
  rw [natChars_eq_map]
  cases hds : (natDigitsRev (m + 1) m).reverse with
  | nil =>
    exact absurd (List.reverse_eq_nil_iff.mp hds)
      (natDigitsRev_ne_nil m m)
  | cons d rest =>
    have hd : d < 10 := by
      refine natDigitsRev_lt (m + 1) m (natChars_bound m) d ?_
      rw [← List.mem_reverse, hds]
      simp
    simp [lookDigit, digitChar_isDigit d hd]

theorem tokAux_none_digit (l : List Char) (h : lookDigit l = true) :
    tokAux none l = tokAux (some (true, 0)) l := by
  cases l with
  | nil => simp [lookDigit] at h
  | cons c cs =>
    have hc : c.isDigit = true := by simpa [lookDigit] using h
    simp [tokAux, hc]

theorem tok_intStr (i : Int) :
    tokAux none (intStr i).data = some [Tok.num i] := by
  unfold intStr
  split_ifs with hneg
  · show tokAux none ('-' :: natChars i.natAbs) = _
    rw [show tokAux none ('-' :: natChars i.natAbs) =
        (tokAux (some (false, 0)) (natChars i.natAbs)).map
          (fun ts => flushP none ++ ts) by
      simp [tokAux, lookDigit_natChars]]
    rw [tokAux_natChars_pending i.natAbs false]
    have habs : ((i.natAbs : Nat) : Int) = -i :=
      Int.ofNat_natAbs_of_nonpos (le_of_lt hneg)
    simp [flushP, habs]
  · show tokAux none (natChars i.toNat) = _
    rw [tokAux_none_digit _ (lookDigit_natChars i.toNat),
      tokAux_natChars_pending i.toNat true]
    simp [Int.toNat_of_nonneg (not_lt.mp hneg)]

/-! ### C1, part 2: the tokenizer splits at a non-digit boundary -/

theorem tokAux_flush : ∀ (l : List Char), lookDigit l = false →
    ∀ p, tokAux p l = (tokAux none l).map (fun ts => flushP p ++ ts) := by
  intro l h p
  cases l with
  | nil => simp [tokAux, flushP]
  | cons c cs =>
    have hd : c.isDigit = false := by simpa [lookDigit] using h
    simp only [tokAux, hd, Bool.false_eq_true, if_false]
    split_ifs <;>
      cases tokAux (some (false, 0)) cs <;>
      cases htn : tokAux none cs <;>
      simp [flushP, htn]

theorem tokAux_append : ∀ (l₁ l₂ : List Char), lookDigit l₂ = false →
    ∀ p, tokAux p (l₁ ++ l₂) =
      (tokAux p l₁).bind fun t1 => (tokAux none l₂).map fun t2 => t1 ++ t2 := by
  intro l₁
  induction l₁ with
  | nil =>
    intro l₂ h p
    rw [List.nil_append, tokAux_flush l₂ h p]
    show _ = (some (flushP p)).bind _
    cases tokAux none l₂ <;> simp
  | cons c cs ih =>
    intro l₂ h p
    by_cases hd : c.isDigit = true
    · rw [List.cons_append]
      cases p with
      | none =>
        rw [show tokAux none (c :: (cs ++ l₂)) =
            tokAux (some (true, c.toNat - 48)) (cs ++ l₂) by
          simp [tokAux, hd]]
        rw [show tokAux none (c :: cs) =
            tokAux (some (true, c.toNat - 48)) cs by
          simp [tokAux, hd]]
        exact ih l₂ h _
      | some pv =>
        obtain ⟨sg, v⟩ := pv
        rw [show tokAux (some (sg, v)) (c :: (cs ++ l₂)) =
            tokAux (some (sg, 10 * v + (c.toNat - 48))) (cs ++ l₂) by
          simp [tokAux, hd]]
        rw [show tokAux (some (sg, v)) (c :: cs) =
            tokAux (some (sg, 10 * v + (c.toNat - 48))) cs by
          simp [tokAux, hd]]
        exact ih l₂ h _
    · rw [Bool.not_eq_true] at hd
      have hlook : lookDigit (cs ++ l₂) = lookDigit cs := by
        cases cs with
        | nil => simpa [lookDigit] using h
        | cons c' cs' => simp [lookDigit]
      rw [List.cons_append]
      simp only [tokAux, hd, Bool.false_eq_true, if_false, hlook]
      split_ifs <;>
        (try rw [ih l₂ h]) <;>
        (cases h3 : tokAux none cs <;>
          cases h4 : tokAux (some (false, 0)) cs <;>
          cases htn2 : tokAux none l₂ <;>
          simp [h3, h4, htn2, List.append_assoc])

/-! ### C1, part 3: tokenizing the renderer's building blocks -/

theorem tokAux_space (cs : List Char) :
    tokAux none (' ' :: cs) = tokAux none cs := by
  rw [show tokAux none (' ' :: cs) =
    (tokAux none cs).map (fun ts => flushP none ++ ts) from rfl]
  simp [flushP]

theorem tokAux_char_lparen (cs : List Char) :
    tokAux none ('(' :: cs) =
      (tokAux none cs).map fun ts => Tok.lparen :: ts := by
  rw [show tokAux none ('(' :: cs) =
    (tokAux none cs).map (fun ts => flushP none ++ (Tok.lparen :: ts)) from rfl]
  simp [flushP]

theorem tokAux_char_rparen (cs : List Char) :
    tokAux none (')' :: cs) =
      (tokAux none cs).map fun ts => Tok.rparen :: ts := by
  rw [show tokAux none (')' :: cs) =
    (tokAux none cs).map (fun ts => flushP none ++ (Tok.rparen :: ts)) from rfl]
  simp [flushP]

theorem tokAux_char_plus (cs : List Char) :
    tokAux none ('+' :: cs) =
      (tokAux none cs).map fun ts => Tok.op OpK.plus :: ts := by
  rw [show tokAux none ('+' :: cs) =
    (tokAux none cs).map (fun ts => flushP none ++ (Tok.op OpK.plus :: ts))
    from rfl]
  simp [flushP]

theorem tokAux_char_minus (cs : List Char) (h : lookDigit cs = false) :
    tokAux none ('-' :: cs) =
      (tokAux none cs).map fun ts => Tok.op OpK.minus :: ts := by
  rw [show tokAux none ('-' :: cs) =
    (if lookDigit cs = true then
      (tokAux (some (false, 0)) cs).map (fun ts => flushP none ++ ts)
     else
      (tokAux none cs).map
        (fun ts => flushP none ++ (Tok.op OpK.minus :: ts))) from rfl]
  simp [h, flushP]

theorem tokAux_char_star (cs : List Char) :
    tokAux none ('*' :: cs) =
      (tokAux none cs).map fun ts => Tok.op OpK.star :: ts := by
  rw [show tokAux none ('*' :: cs) =
    (tokAux none cs).map (fun ts => flushP none ++ (Tok.op OpK.star :: ts))
    from rfl]
  simp [flushP]

theorem tokAux_char_slash (cs : List Char) :
    tokAux none ('/' :: cs) =
      (tokAux none cs).map fun ts => Tok.op OpK.slash :: ts := by
  rw [show tokAux none ('/' :: cs) =
    (tokAux none cs).map (fun ts => flushP none ++ (Tok.op OpK.slash :: ts))
    from rfl]
  simp [flushP]

theorem tok_op_suffix (op : String) (k : OpK) (n : Int)
    (h : op = "+" ∧ k = OpK.plus ∨ op = "-" ∧ k = OpK.minus ∨
         op = "*" ∧ k = OpK.star ∨ op = "/" ∧ k = OpK.slash) :
    tokAux none (' ' :: (op.data ++ (' ' :: (intStr n).data))) =
      some [Tok.op k, Tok.num n] := by
  rcases h with ⟨rfl, rfl⟩ | ⟨rfl, rfl⟩ | ⟨rfl, rfl⟩ | ⟨rfl, rfl⟩
  · show tokAux none (' ' :: '+' :: ' ' :: (intStr n).data) = _
    rw [tokAux_space, tokAux_char_plus, tokAux_space, tok_intStr]
    rfl
  · show tokAux none (' ' :: '-' :: ' ' :: (intStr n).data) = _
    rw [tokAux_space, tokAux_char_minus (' ' :: (intStr n).data) rfl,
      tokAux_space, tok_intStr]
    rfl
  · show tokAux none (' ' :: '*' :: ' ' :: (intStr n).data) = _
    rw [tokAux_space, tokAux_char_star, tokAux_space, tok_intStr]
    rfl
  · show tokAux none (' ' :: '/' :: ' ' :: (intStr n).data) = _
    rw [tokAux_space, tokAux_char_slash, tokAux_space, tok_intStr]
    rfl

theorem tok_plain (ex op : String) (k : OpK) (n : Int) (ts : List Tok)
    (hex : tokAux none ex.data = some ts)
    (hop : tokAux none (' ' :: (op.data ++ (' ' :: (intStr n).data))) =
      some [Tok.op k, Tok.num n]) :
    tokAux none (ex ++ " " ++ op ++ " " ++ intStr n).data =
      some (ts ++ [Tok.op k, Tok.num n]) := by
  have hdata : (ex ++ " " ++ op ++ " " ++ intStr n).data =
      ex.data ++ (' ' :: (op.data ++ (' ' :: (intStr n).data))) := by
    simp [String.data_append]
  rw [hdata, tokAux_append ex.data
    (' ' :: (op.data ++ (' ' :: (intStr n).data))) rfl none, hex, hop]
  rfl

theorem tok_wrap (ex op : String) (k : OpK) (n : Int) (ts : List Tok)
    (hex : tokAux none ex.data = some ts)
    (hop : tokAux none (' ' :: (op.data ++ (' ' :: (intStr n).data))) =
      some [Tok.op k, Tok.num n]) :
    tokAux none ("(" ++ ex ++ ") " ++ op ++ " " ++ intStr n).data =
      some (Tok.lparen :: (ts ++ [Tok.rparen, Tok.op k, Tok.num n])) := by
  have hdata : ("(" ++ ex ++ ") " ++ op ++ " " ++ intStr n).data =
      '(' :: (ex.data ++
        (')' :: ' ' :: (op.data ++ (' ' :: (intStr n).data)))) := by
    simp [String.data_append]
  rw [hdata, tokAux_char_lparen,
    tokAux_append ex.data
      (')' :: ' ' :: (op.data ++ (' ' :: (intStr n).data))) rfl none,
    hex, tokAux_char_rparen, tokAux_space]
  rw [show tokAux none (op.data ++ (' ' :: (intStr n).data)) =
      tokAux none (' ' :: (op.data ++ (' ' :: (intStr n).data))) from
    (tokAux_space _).symm]
  rw [hop]
  rfl

/-! ### C1, part 4: the operator-precedence machine invariant -/

theorem prec_pos (o : OpK) : 1 ≤ prec o := by cases o <;> simp [prec]

theorem popGE_mark (o : OpK) (vs : List Int) (os : List (Option OpK))
    (h : topMark os = true) : popGE o vs os = some (vs, os) := by
  cases os with
  | nil => rfl
  | cons hd tl =>
    cases hd with
    | none => rfl
    | some o' => simp [topMark] at h

theorem runToks_append (ts1 ts2 : List Tok) :
    ∀ st, runToks st (ts1 ++ ts2) =
      (runToks st ts1).bind fun st' => runToks st' ts2 := by
  induction ts1 with
  | nil => intro st; simp [runToks]
  | cons t ts ih =>
    intro st
    rw [List.cons_append, runToks, runToks]
    cases stepTok st t <;> simp [ih]

theorem MInv_num (n : Int) : MInv [Tok.num n] n false := by
  intro vs os hm
  left
  exact ⟨by simp [runToks, stepTok], rfl⟩

theorem MInv_add (ts : List Tok) (acc : Int) (mult : Bool) (o : OpK)
    (n : Int) (ho : prec o = 1) (h : MInv ts acc mult) :
    MInv (ts ++ [Tok.op o, Tok.num n]) (applyK o acc n) false := by
  intro vs os hm
  rw [runToks_append]
  rcases h vs os hm with ⟨hrun, -⟩ | ⟨a, b, o', hrun, happ, hprec⟩
  · rw [hrun]
    right
    refine ⟨acc, n, o, ?_, rfl, by simp [ho]⟩
    simp [runToks, stepTok, popGE_mark _ _ _ hm]
  · rw [hrun]
    right
    refine ⟨acc, n, o, ?_, rfl, by simp [ho]⟩
    have hle : prec o ≤ prec o' := by rw [ho]; exact prec_pos o'
    simp [runToks, stepTok, popGE, hle, popGE_mark _ _ _ hm, happ]

theorem MInv_mul_ext (ts : List Tok) (acc : Int) (o : OpK) (n : Int)
    (ho : prec o = 2) (h : MInv ts acc true) :
    MInv (ts ++ [Tok.op o, Tok.num n]) (applyK o acc n) true := by
  intro vs os hm
  rw [runToks_append]
  rcases h vs os hm with ⟨-, hfalse⟩ | ⟨a, b, o', hrun, happ, hprec⟩
  · exact absurd hfalse (by simp)
  · rw [hrun]
    right
    refine ⟨acc, n, o, ?_, rfl, by simp [ho]⟩
    have hle : prec o ≤ prec o' := by
      rw [ho, hprec.mpr rfl]
    simp [runToks, stepTok, popGE, hle, popGE_mark _ _ _ hm, happ]

theorem MInv_wrap (ts : List Tok) (acc : Int) (o : OpK) (n : Int)
    (ho : prec o = 2) (h : MInv ts acc false) :
    MInv (Tok.lparen :: (ts ++ [Tok.rparen, Tok.op o, Tok.num n]))
      (applyK o acc n) true := by
  intro vs os hm
  rw [show runToks (vs, os)
      (Tok.lparen :: (ts ++ [Tok.rparen, Tok.op o, Tok.num n]))
      = runToks (vs, none :: os) (ts ++ [Tok.rparen, Tok.op o, Tok.num n]) by
    simp [runToks, stepTok]]
  rw [runToks_append]
  rcases h vs (none :: os) (by simp [topMark]) with
    ⟨hrun, -⟩ | ⟨a, b, o', hrun, happ, hprec⟩
  · rw [hrun]
    right
    refine ⟨acc, n, o, ?_, rfl, by simp [ho]⟩
    simp [runToks, stepTok, popToMark, popGE_mark _ _ _ hm]
  · rw [hrun]
    right
    refine ⟨acc, n, o, ?_, rfl, by simp [ho]⟩
    simp [runToks, stepTok, popToMark, happ, popGE_mark _ _ _ hm]

theorem MInv_evalToks (ts : List Tok) (r : Int) (m : Bool)
    (h : MInv ts r m) : evalToks ts = some r := by
  rcases h [] [] rfl with ⟨hrun, -⟩ | ⟨a, b, o, hrun, happ, -⟩
  · simp [evalToks, hrun, popAll]
  · simp [evalToks, hrun, popAll, happ]

/-! ### C1, part 5: the renderer/parser correspondence -/

theorem evalLoop_parse : ∀ (ns : List Int) (os : List String) (acc : Int)
    (ex po : String) (ts : List Tok) (mult : Bool),
    ns.length ≤ os.length →
    (∀ o ∈ os, o ∈ opsList) →
    divHitLoop ns os = false →
    (mult = false → po = "+" ∨ po = "-") →
    (mult = true → po = "*" ∨ po = "/") →
    tokAux none ex.data = some ts →
    MInv ts acc mult →
    ∃ r e, evalLoop acc ex po ns os = some (r, e) ∧ parseEval e = some r := by
  intro ns
  induction ns with
  | nil =>
    intro os acc ex po ts mult _ _ _ _ _ htok hinv
    refine ⟨acc, ex, rfl, ?_⟩
    rw [parseEval, htok]
    exact MInv_evalToks ts acc mult hinv
  | cons n ns ih =>
    intro os acc ex po ts mult hlen hops hdiv hmf hmt htok hinv
    cases os with
    | nil => simp at hlen
    | cons op os =>
      have hlen' : ns.length ≤ os.length := by simpa using hlen
      have hops' : ∀ o ∈ os, o ∈ opsList :=
        fun o ho => hops o (by simp [ho])
      have hop4 : op = "+" ∨ op = "-" ∨ op = "*" ∨ op = "/" := by
        have := hops op (by simp)
        simpa [opsList] using this
      have hnotdiv : ¬ (op = "/" ∧ n = 0) := by
        intro hc
        rw [divHitLoop, if_pos hc] at hdiv
        exact absurd hdiv (by simp)
      rw [divHitLoop, if_neg hnotdiv] at hdiv
      rcases hop4 with rfl | rfl | rfl | rfl
      · -- op = "+"
        have hstep : evalLoop acc ex po (n :: ns) ("+" :: os) =
            evalLoop (acc + n) (nextExpr ex "+" po n) "+" ns os := rfl
        have hne : nextExpr ex "+" po n =
            ex ++ " " ++ "+" ++ " " ++ intStr n := by
          rw [nextExpr, if_neg]
          rintro ⟨-, h2 | h2⟩ <;> exact absurd h2 (by decide)
        have htok' : tokAux none (nextExpr ex "+" po n).data =
            some (ts ++ [Tok.op OpK.plus, Tok.num n]) := by
          rw [hne]
          exact tok_plain ex "+" OpK.plus n ts htok
            (tok_op_suffix "+" OpK.plus n (Or.inl ⟨rfl, rfl⟩))
        have hinv' : MInv (ts ++ [Tok.op OpK.plus, Tok.num n]) (acc + n)
            false := by
          have := MInv_add ts acc mult OpK.plus n rfl hinv
          rwa [show applyK OpK.plus acc n = acc + n from rfl] at this
        obtain ⟨r, e, heval, hpe⟩ := ih os (acc + n) (nextExpr ex "+" po n)
          "+" (ts ++ [Tok.op OpK.plus, Tok.num n]) false hlen' hops' hdiv
          (fun _ => Or.inl rfl) (fun hc => absurd hc (by simp)) htok' hinv'
        exact ⟨r, e, by rw [hstep]; exact heval, hpe⟩
      · -- op = "-"
        have hstep : evalLoop acc ex po (n :: ns) ("-" :: os) =
            evalLoop (acc - n) (nextExpr ex "-" po n) "-" ns os := rfl
        have hne : nextExpr ex "-" po n =
            ex ++ " " ++ "-" ++ " " ++ intStr n := by
          rw [nextExpr, if_neg]
          rintro ⟨-, h2 | h2⟩ <;> exact absurd h2 (by decide)
        have htok' : tokAux none (nextExpr ex "-" po n).data =
            some (ts ++ [Tok.op OpK.minus, Tok.num n]) := by
          rw [hne]
          exact tok_plain ex "-" OpK.minus n ts htok
            (tok_op_suffix "-" OpK.minus n (Or.inr (Or.inl ⟨rfl, rfl⟩)))
        have hinv' : MInv (ts ++ [Tok.op OpK.minus, Tok.num n]) (acc - n)
            false := by
          have := MInv_add ts acc mult OpK.minus n rfl hinv
          rwa [show applyK OpK.minus acc n = acc - n from rfl] at this
        obtain ⟨r, e, heval, hpe⟩ := ih os (acc - n) (nextExpr ex "-" po n)
          "-" (ts ++ [Tok.op OpK.minus, Tok.num n]) false hlen' hops' hdiv
          (fun _ => Or.inr rfl) (fun hc => absurd hc (by simp)) htok' hinv'
        exact ⟨r, e, by rw [hstep]; exact heval, hpe⟩
      · -- op = "*"
        have hstep : evalLoop acc ex po (n :: ns) ("*" :: os) =
            evalLoop (acc * n) (nextExpr ex "*" po n) "*" ns os := rfl
        cases hm : mult with
        | false =>
          have hpo := hmf hm
          have hne : nextExpr ex "*" po n =
              "(" ++ ex ++ ") " ++ "*" ++ " " ++ intStr n := by
            rw [nextExpr, if_pos ⟨hpo, Or.inl rfl⟩]
          have htok' : tokAux none (nextExpr ex "*" po n).data =
              some (Tok.lparen ::
                (ts ++ [Tok.rparen, Tok.op OpK.star, Tok.num n])) := by
            rw [hne]
            exact tok_wrap ex "*" OpK.star n ts htok
              (tok_op_suffix "*" OpK.star n
                (Or.inr (Or.inr (Or.inl ⟨rfl, rfl⟩))))
          have hinv' : MInv (Tok.lparen ::
              (ts ++ [Tok.rparen, Tok.op OpK.star, Tok.num n]))
              (acc * n) true := by
            have := MInv_wrap ts acc OpK.star n rfl (hm ▸ hinv)
            rwa [show applyK OpK.star acc n = acc * n from rfl] at this
          obtain ⟨r, e, heval, hpe⟩ := ih os (acc * n)
            (nextExpr ex "*" po n) "*"
            (Tok.lparen :: (ts ++ [Tok.rparen, Tok.op OpK.star, Tok.num n]))
            true hlen' hops' hdiv (fun hc => absurd hc (by simp))
            (fun _ => Or.inl rfl) htok' hinv'
          exact ⟨r, e, by rw [hstep]; exact heval, hpe⟩
        | true =>
          have hpo := hmt hm
          have hne : nextExpr ex "*" po n =
              ex ++ " " ++ "*" ++ " " ++ intStr n := by
            rw [nextExpr, if_neg]
            rintro ⟨h1 | h1, -⟩ <;> rcases hpo with rfl | rfl <;>
              exact absurd h1 (by decide)
          have htok' : tokAux none (nextExpr ex "*" po n).data =
              some (ts ++ [Tok.op OpK.star, Tok.num n]) := by
            rw [hne]
            exact tok_plain ex "*" OpK.star n ts htok
              (tok_op_suffix "*" OpK.star n
                (Or.inr (Or.inr (Or.inl ⟨rfl, rfl⟩))))
          have hinv' : MInv (ts ++ [Tok.op OpK.star, Tok.num n])
              (acc * n) true := by
            have := MInv_mul_ext ts acc OpK.star n rfl (hm ▸ hinv)
            rwa [show applyK OpK.star acc n = acc * n from rfl] at this
          obtain ⟨r, e, heval, hpe⟩ := ih os (acc * n)
            (nextExpr ex "*" po n) "*" (ts ++ [Tok.op OpK.star, Tok.num n])
            true hlen' hops' hdiv (fun hc => absurd hc (by simp))
            (fun _ => Or.inl rfl) htok' hinv'
          exact ⟨r, e, by rw [hstep]; exact heval, hpe⟩
      · -- op = "/"
        have hn0 : n ≠ 0 := fun hc => hnotdiv ⟨rfl, hc⟩
        have hstep : evalLoop acc ex po (n :: ns) ("/" :: os) =
            if n ≠ 0 then
              evalLoop (Int.tdiv acc n) (nextExpr ex "/" po n) "/" ns os
            else some (0, "") := rfl
        cases hm : mult with
        | false =>
          have hpo := hmf hm
          have hne : nextExpr ex "/" po n =
              "(" ++ ex ++ ") " ++ "/" ++ " " ++ intStr n := by
            rw [nextExpr, if_pos ⟨hpo, Or.inr rfl⟩]
          have htok' : tokAux none (nextExpr ex "/" po n).data =
              some (Tok.lparen ::
                (ts ++ [Tok.rparen, Tok.op OpK.slash, Tok.num n])) := by
            rw [hne]
            exact tok_wrap ex "/" OpK.slash n ts htok
              (tok_op_suffix "/" OpK.slash n
                (Or.inr (Or.inr (Or.inr ⟨rfl, rfl⟩))))
          have hinv' : MInv (Tok.lparen ::
              (ts ++ [Tok.rparen, Tok.op OpK.slash, Tok.num n]))
              (Int.tdiv acc n) true := by
            have := MInv_wrap ts acc OpK.slash n rfl (hm ▸ hinv)
            rwa [show applyK OpK.slash acc n = Int.tdiv acc n from rfl]
              at this
          obtain ⟨r, e, heval, hpe⟩ := ih os (Int.tdiv acc n)
            (nextExpr ex "/" po n) "/"
            (Tok.lparen ::
              (ts ++ [Tok.rparen, Tok.op OpK.slash, Tok.num n]))
            true hlen' hops' hdiv (fun hc => absurd hc (by simp))
            (fun _ => Or.inr rfl) htok' hinv'
          exact ⟨r, e, by rw [hstep, if_pos hn0]; exact heval, hpe⟩
        | true =>
          have hpo := hmt hm
          have hne : nextExpr ex "/" po n =
              ex ++ " " ++ "/" ++ " " ++ intStr n := by
            rw [nextExpr, if_neg]
            rintro ⟨h1 | h1, -⟩ <;> rcases hpo with rfl | rfl <;>
              exact absurd h1 (by decide)
          have htok' : tokAux none (nextExpr ex "/" po n).data =
              some (ts ++ [Tok.op OpK.slash, Tok.num n]) := by
            rw [hne]
            exact tok_plain ex "/" OpK.slash n ts htok
              (tok_op_suffix "/" OpK.slash n
                (Or.inr (Or.inr (Or.inr ⟨rfl, rfl⟩))))
          have hinv' : MInv (ts ++ [Tok.op OpK.slash, Tok.num n])
              (Int.tdiv acc n) true := by
            have := MInv_mul_ext ts acc OpK.slash n rfl (hm ▸ hinv)
            rwa [show applyK OpK.slash acc n = Int.tdiv acc n from rfl]
              at this
          obtain ⟨r, e, heval, hpe⟩ := ih os (Int.tdiv acc n)
            (nextExpr ex "/" po n) "/" (ts ++ [Tok.op OpK.slash, Tok.num n])
            true hlen' hops' hdiv (fun hc => absurd hc (by simp))
            (fun _ => Or.inr rfl) htok' hinv'
          exact ⟨r, e, by rw [hstep, if_pos hn0]; exact heval, hpe⟩

/-- C1: for a non-empty operand list, an operator list of matching
length drawn from `{+,-,*,/}`, and no division by zero during
evaluation, `evalExpression` succeeds with some `(r, e)` and re-parsing
the rendered string `e` under standard operator precedence (`*`,`/`
over `+`,`-`, left associativity, truncating division) yields exactly
the left-to-right result `r`. -/
theorem C1_parenthesization_correct (nums : List Int) (ops : List String)
    (h1 : 1 ≤ nums.length) (h2 : ops.length = nums.length - 1)
    (h3 : ∀ o ∈ ops, o ∈ opsList) (h4 : divZeroHit nums ops = false) :
    ∃ r e, evalExpression nums ops = some (r, e) ∧ parseEval e = some r := by
  cases nums with
  | nil => simp at h1
  | cons n ns =>
    rw [show evalExpression (n :: ns) ops =
      evalLoop n (intStr n) "+" ns ops from rfl]
    rw [divZeroHit] at h4
    refine evalLoop_parse ns ops n (intStr n) "+" [Tok.num n] false
      (le_of_eq ?_) h3 h4 (fun _ => Or.inl rfl)
      (fun hc => absurd hc (by simp)) (tok_intStr n) (MInv_num n)
    rw [h2]
    simp

theorem C1_witness :
    ∃ r e, evalExpression [5, 2] ["*"] = some (r, e) ∧
      parseEval e = some r :=
  C1_parenthesization_correct [5, 2] ["*"] (by decide) (by decide)
    (by decide) (by decide)

/-! ### C7, part 1: swap and rotation basics -/

theorem listSwap_length (l : List Int) (i j : Nat) :
    (listSwap l i j).length = l.length := by
  simp [listSwap]

theorem listSwap_self (l : List Int) (i : Nat) : listSwap l i i = l := by
  rw [listSwap, List.set_set]
  exact set_getD_self l i

theorem rotFront_length (n : Nat) (l : List Int) :
    (rotFront n l).length = l.length := by
  simp [rotFront]
  omega

theorem take_length_eq (n : Nat) (l : List Int) (h : n ≤ l.length) :
    (l.take n).length = n := by
  simp [h]

theorem rotFront_drop (n : Nat) (l : List Int) (h : n ≤ l.length) :
    (rotFront n l).drop n = l.drop n := by
  rw [rotFront]
  exact List.drop_left' (by simp [take_length_eq n l h])

theorem rotFront_take (n : Nat) (l : List Int) (h : n ≤ l.length) :
    (rotFront n l).take n = (l.take n).rotate (n - 1) := by
  rw [rotFront]
  exact List.take_left' (by simp [take_length_eq n l h])

theorem permFinal_length (n : Nat) (l : List Int) :
    (permFinal n l).length = l.length := by
  rw [permFinal]
  split_ifs
  · exact rotFront_length n l
  · rfl

theorem permFinal_drop (n : Nat) (l : List Int) (h : n ≤ l.length) :
    (permFinal n l).drop n = l.drop n := by
  rw [permFinal]
  split_ifs
  · exact rotFront_drop n l h
  · rfl

theorem permFinal_take_perm (n : Nat) (l : List Int) (h : n ≤ l.length) :
    ((permFinal n l).take n).Perm (l.take n) := by
  rw [permFinal]
  split_ifs
  · rw [rotFront_take n l h]
    exact List.rotate_perm (l.take n) (n - 1)
  · exact List.Perm.refl _

theorem swap_head (x : Int) (mid : List Int) (z : Int) (R : List Int) :
    listSwap (x :: (mid ++ (z :: R))) 0 (mid.length + 1) =
      z :: (mid ++ (x :: R)) := by
  have hg1 : (x :: (mid ++ (z :: R))).getD (mid.length + 1) 0 = z := by
    rw [List.getD_cons_succ,
      List.getD_append_right mid (z :: R) 0 mid.length (le_refl _)]
    simp
  have hg0 : (x :: (mid ++ (z :: R))).getD 0 0 = x := rfl
  rw [listSwap, hg1, hg0]
  show (z :: (mid ++ (z :: R))).set (mid.length + 1) x = _
  rw [List.set_cons_succ,
    List.set_append_right mid.length x (le_refl _)]
  simp

theorem swap_mid (z : Int) (A : List Int) (b : Int) (B : List Int)
    (c : Int) (R : List Int) :
    listSwap (z :: (A ++ (b :: (B ++ (c :: R)))))
        (A.length + 1) (A.length + 1 + (B.length + 1)) =
      z :: (A ++ (c :: (B ++ (b :: R)))) := by
  have hgp : (z :: (A ++ (b :: (B ++ (c :: R))))).getD (A.length + 1) 0
      = b := by
    rw [List.getD_cons_succ,
      List.getD_append_right A _ 0 A.length (le_refl _)]
    simp
  have hgq : (z :: (A ++ (b :: (B ++ (c :: R))))).getD
      (A.length + 1 + (B.length + 1)) 0 = c := by
    rw [show A.length + 1 + (B.length + 1) =
      (A.length + (B.length + 1)) + 1 by omega]
    rw [List.getD_cons_succ,
      List.getD_append_right A _ 0 _ (by omega)]
    rw [show A.length + (B.length + 1) - A.length = B.length + 1 by omega]
    rw [List.getD_cons_succ,
      List.getD_append_right B _ 0 B.length (le_refl _)]
    simp
  rw [listSwap, hgp, hgq]
  rw [show (z :: (A ++ (b :: (B ++ (c :: R))))).set (A.length + 1) c =
      z :: (A ++ (c :: (B ++ (c :: R)))) by
    rw [List.set_cons_succ, List.set_append_right A.length c (le_refl _)]
    simp]
  rw [show A.length + 1 + (B.length + 1) =
    (A.length + (B.length + 1)) + 1 by omega]
  rw [List.set_cons_succ, List.set_append_right _ b (by omega)]
  rw [show A.length + (B.length + 1) - A.length = B.length + 1 by omega]
  rw [List.set_cons_succ, List.set_append_right B.length b (le_refl _)]
  simp

/-! ### C7, part 2: the odd-level step rotates the first `n` entries -/

theorem decompose_two (s : List Int) (k : Nat) (h : k + 2 ≤ s.length) :
    s = s.take k ++ (s.getD k 0 :: (s.getD (k + 1) 0 :: s.drop (k + 2))) := by
  have h1 : k < s.length := by omega
  have h2 : k + 1 < s.length := by omega
  rw [List.getD_eq_getElem s 0 h1, List.getD_eq_getElem s 0 h2]
  rw [show s[k] :: (s[k + 1] :: s.drop (k + 2)) = s.drop k by
    rw [List.drop_eq_getElem_cons h1, List.drop_eq_getElem_cons h2]]
  exact (List.take_append_drop k s).symm

theorem swap_rotFront (k : Nat) (s : List Int) (hlen : k + 2 ≤ s.length) :
    listSwap (rotFront (k + 1) s) 0 (k + 1) = rotFront (k + 2) s := by
  have hu : (s.take k).length = k := take_length_eq k s (by omega)
  set u := s.take k with hu_def
  set y := s.getD k 0 with hy_def
  set z := s.getD (k + 1) 0 with hz_def
  set r := s.drop (k + 2) with hr_def
  have hs : s = u ++ (y :: (z :: r)) := decompose_two s k hlen
  -- left side: rotFront (k+1) s = y :: (u ++ (z :: r))
  have htake1 : s.take (k + 1) = u ++ [y] := by
    rw [hs]
    rw [show k + 1 = u.length + 1 by rw [hu]]
    rw [List.take_append]
    rfl
  have hdrop1 : s.drop (k + 1) = z :: r := by
    rw [hs]
    rw [show k + 1 = u.length + 1 by rw [hu]]
    rw [List.drop_append]
    rfl
  have hrot1 : rotFront (k + 1) s = y :: (u ++ (z :: r)) := by
    rw [rotFront, htake1, hdrop1,
      List.rotate_eq_drop_append_take (by simp [hu]; try omega)]
    rw [show k + 1 - 1 = u.length by simp [hu]]
    rw [List.drop_left, List.take_left]
    rfl
  -- right side: rotFront (k+2) s = z :: (u ++ (y :: r))
  have htake2 : s.take (k + 2) = u ++ (y :: [z]) := by
    rw [hs]
    rw [show k + 2 = u.length + 2 by rw [hu]]
    rw [List.take_append]
    rfl
  have hdrop2 : s.drop (k + 2) = r := by
    rw [hs]
    rw [show k + 2 = u.length + 2 by rw [hu]]
    rw [List.drop_append]
    rfl
  have hrot2 : rotFront (k + 2) s = z :: (u ++ (y :: r)) := by
    rw [rotFront, htake2, hdrop2,
      List.rotate_eq_drop_append_take (by simp [hu]; try omega)]
    rw [show k + 2 - 1 = (u ++ [y]).length by simp [hu]]
    rw [show u ++ (y :: [z]) = (u ++ [y]) ++ [z] by simp]
    rw [List.drop_left, List.take_left]
    simp
  rw [hrot1, hrot2]
  rw [show k + 1 = u.length + 1 by rw [hu]]
  exact swap_head y u z r

theorem rotFront_iterate (n : Nat) (l : List Int) (h : n ≤ l.length) :
    ∀ k, (fun t => rotFront n t)^[k] l =
      (l.take n).rotate ((n - 1) * k) ++ l.drop n := by
  intro k
  induction k with
  | zero => simp [List.take_append_drop]
  | succ k ih =>
    rw [Function.iterate_succ_apply', ih]
    have hxlen : (((l.take n).rotate ((n - 1) * k))).length = n := by
      simp [take_length_eq n l h]
    rw [rotFront, List.take_left' hxlen, List.drop_left' hxlen,
      List.rotate_rotate]
    rw [Nat.mul_succ]

theorem rotFront_iterate_full (n : Nat) (l : List Int) (h : n ≤ l.length) :
    (fun t => rotFront n t)^[n] l = l := by
  rw [rotFront_iterate n l h n]
  have hlen : (l.take n).length = n := take_length_eq n l h
  rw [show (n - 1) * n = (l.take n).length * (n - 1) by rw [hlen]; ring]
  rw [List.rotate_length_mul, List.take_append_drop]

/-! ### C7, part 3: the even-level loop's state trajectory -/

theorem listSwap_entry (w : List Int) (z : Int) (r : List Int) (m : Nat)
    (hw : w.length = m + 1) :
    listSwap (w ++ (z :: r)) 0 (m + 1) =
      z :: (w.take 0 ++ (w.drop 1 ++ (w.getD 0 0 :: r))) := by
  cases w with
  | nil => simp at hw
  | cons w0 w' =>
    have hw' : w'.length = m := by simpa using hw
    rw [show (w0 :: w') ++ (z :: r) = w0 :: (w' ++ (z :: r)) by simp]
    rw [show m + 1 = w'.length + 1 by rw [hw']]
    rw [swap_head w0 w' z r]
    simp

theorem listSwap_cf_step (w : List Int) (z : Int) (r : List Int)
    (m j : Nat) (hw : w.length = m + 1) (hj1 : 1 ≤ j) (hjm : j ≤ m) :
    listSwap (z :: (w.take (j - 1) ++ (w.drop j ++ (w.getD (j - 1) 0 :: r))))
        j (m + 1) =
      z :: (w.take j ++ (w.drop (j + 1) ++ (w.getD j 0 :: r))) := by
  obtain ⟨i, rfl⟩ : ∃ i, j = i + 1 := ⟨j - 1, by omega⟩
  simp only [Nat.add_sub_cancel]
  have hA : (w.take i).length = i := take_length_eq i w (by omega)
  have hiw : i + 1 < w.length := by omega
  have hdropj : w.drop (i + 1) = w.getD (i + 1) 0 :: w.drop (i + 2) := by
    rw [List.getD_eq_getElem w 0 hiw]
    exact List.drop_eq_getElem_cons hiw
  have hB : (w.drop (i + 2)).length = m - (i + 1) := by
    rw [List.length_drop, hw]; omega
  have htakei : w.take (i + 1) = w.take i ++ [w.getD i 0] := by
    have hi : i < w.length := by omega
    rw [List.getD_eq_getElem w 0 hi, List.take_succ,
      List.getElem?_eq_getElem hi]
    rfl
  rw [hdropj, htakei]
  rw [show z :: (w.take i ++
      ((w.getD (i + 1) 0 :: w.drop (i + 2)) ++ (w.getD i 0 :: r))) =
    z :: (w.take i ++
      (w.getD (i + 1) 0 :: (w.drop (i + 2) ++ (w.getD i 0 :: r)))) by simp]
  rw [show z :: ((w.take i ++ [w.getD i 0]) ++
      (w.drop (i + 2) ++ (w.getD (i + 1) 0 :: r))) =
    z :: (w.take i ++
      (w.getD i 0 :: (w.drop (i + 2) ++ (w.getD (i + 1) 0 :: r)))) by simp]
  have hsw := swap_mid z (w.take i) (w.getD (i + 1) 0) (w.drop (i + 2))
    (w.getD i 0) r
  rw [hA, hB] at hsw
  rw [show i + 1 + (m - (i + 1) + 1) = m + 1 by omega] at hsw
  exact hsw

/-! ### C7, part 4: loop characterizations at odd and even levels -/

theorem permLoop_odd (step : List Int → List (List Int) × List Int)
    (n L : Nat) (hn : n % 2 = 1) (h2 : 2 ≤ n) (hL : n ≤ L)
    (hstep2 : ∀ s : List Int, s.length = L →
      (step s).2 = rotFront (n - 1) s) :
    ∀ (is : List Nat) (s : List Int), s.length = L →
    permLoop step n is s =
      ((List.range is.length).flatMap fun k =>
        (step ((fun t => rotFront n t)^[k] s)).1,
       (fun t => rotFront n t)^[is.length] s) := by
  intro is
  induction is with
  | nil => intro s _; simp [permLoop]
  | cons i is ih =>
    intro s hs
    rw [show permLoop step n (i :: is) s =
      ((step s).1 ++ (permLoop step n is
          (if n % 2 = 1 then listSwap (step s).2 0 (n - 1)
           else listSwap (step s).2 i (n - 1))).1,
        (permLoop step n is
          (if n % 2 = 1 then listSwap (step s).2 0 (n - 1)
           else listSwap (step s).2 i (n - 1))).2) from rfl]
    rw [if_pos hn, hstep2 s hs]
    obtain ⟨k, rfl⟩ : ∃ k, n = k + 2 := ⟨n - 2, by omega⟩
    rw [show k + 2 - 1 = k + 1 from rfl]
    rw [swap_rotFront k s (by omega)]
    have hs' : (rotFront (k + 2) s).length = L := by
      rw [rotFront_length]; exact hs
    rw [ih (rotFront (k + 2) s) hs', Prod.mk.injEq]
    refine ⟨?_, ?_⟩
    · rw [List.length_cons, List.range_succ_eq_map, List.flatMap_cons,
        List.flatMap_map, Function.iterate_zero_apply]
      congr 1
      try simp [Function.comp, Function.iterate_succ_apply]
    · rw [List.length_cons, Function.iterate_succ_apply]

theorem permLoop_cons_even (step : List Int → List (List Int) × List Int)
    (n : Nat) (hn : n % 2 = 0) (i : Nat) (is : List Nat)
    (arr : List Int) :
    permLoop step n (i :: is) arr =
      ((step arr).1 ++
        (permLoop step n is (listSwap (step arr).2 i (n - 1))).1,
       (permLoop step n is (listSwap (step arr).2 i (n - 1))).2) := by
  simp only [permLoop]
  rw [if_neg (by omega)]

theorem permLoop_even_cf (step : List Int → List (List Int) × List Int)
    (m : Nat) (w : List Int) (z : Int) (r : List Int)
    (hn : (m + 2) % 2 = 0) (hw : w.length = m + 1)
    (hstep2 : ∀ s : List Int, s.length = m + 2 + r.length →
      (step s).2 = s) :
    ∀ (cnt j : Nat), 1 ≤ j → j ≤ m + 1 → j + cnt = m + 2 →
    permLoop step (m + 2) (List.range' j cnt)
        (z :: (w.take (j - 1) ++ (w.drop j ++ (w.getD (j - 1) 0 :: r)))) =
      ((List.range' j cnt).flatMap fun k =>
        (step (z :: (w.take (k - 1) ++
          (w.drop k ++ (w.getD (k - 1) 0 :: r))))).1,
       z :: (w.take m ++ (w.drop (m + 1) ++ (w.getD m 0 :: r)))) := by
  intro cnt
  induction cnt with
  | zero => intro j hj1 hjm1 hsum; omega
  | succ cnt ih =>
    intro j hj1 hjm1 hsum
    have hcflen : (z :: (w.take (j - 1) ++
        (w.drop j ++ (w.getD (j - 1) 0 :: r)))).length =
        m + 2 + r.length := by
      simp [List.length_append, take_length_eq (j - 1) w (by omega),
        List.length_drop, hw]
      omega
    rw [show List.range' j (cnt + 1) = j :: List.range' (j + 1) cnt
      from rfl]
    rw [permLoop_cons_even step (m + 2) hn j (List.range' (j + 1) cnt) _]
    rw [hstep2 _ hcflen]
    rw [show m + 2 - 1 = m + 1 from rfl]
    rcases Nat.eq_zero_or_pos cnt with rfl | hpos
    · obtain rfl : j = m + 1 := by omega
      rw [listSwap_self]
      rw [show permLoop step (m + 2) (List.range' (m + 1 + 1) 0)
          (z :: (w.take (m + 1 - 1) ++ (w.drop (m + 1) ++
            (w.getD (m + 1 - 1) 0 :: r)))) =
        ([], z :: (w.take (m + 1 - 1) ++ (w.drop (m + 1) ++
          (w.getD (m + 1 - 1) 0 :: r)))) from rfl]
      simp
    · have hjm : j ≤ m := by omega
      rw [listSwap_cf_step w z r m j hw hj1 hjm]
      have IH := ih (j + 1) (by omega) (by omega) (by omega)
      simp only [Nat.add_sub_cancel] at IH
      rw [IH, List.flatMap_cons]

/-! ### C7, part 5: state facts feeding the main induction -/

theorem getD_zero_drop (l : List Int) : ∀ k, l.getD k 0 = (l.drop k).getD 0 0 := by
  induction l with
  | nil => intro k; simp
  | cons a l ih =>
    intro k
    cases k with
    | zero => simp
    | succ k => simpa using ih k

theorem odd_state_facts (arr : List Int) (m k : Nat)
    (hlen : m + 2 ≤ arr.length) :
    ((fun t => rotFront (m + 2) t)^[k] arr).length = arr.length ∧
    ((fun t => rotFront (m + 2) t)^[k] arr).take (m + 2) =
      (arr.take (m + 2)).rotate ((m + 1) * k) ∧
    ((fun t => rotFront (m + 2) t)^[k] arr).drop (m + 2) =
      arr.drop (m + 2) := by
  have hit := rotFront_iterate (m + 2) arr hlen k
  rw [show (m + 2) - 1 = m + 1 from rfl] at hit
  have hxlen : ((arr.take (m + 2)).rotate ((m + 1) * k)).length = m + 2 := by
    simp [take_length_eq (m + 2) arr hlen]
  refine ⟨?_, ?_, ?_⟩
  · rw [hit]
    simp [hxlen]
    omega
  · rw [hit]
    exact List.take_left' hxlen
  · rw [hit]
    exact List.drop_left' hxlen

theorem odd_state_last (arr : List Int) (m k : Nat)
    (hlen : m + 2 ≤ arr.length) (hk : k ≤ m + 1) :
    ((fun t => rotFront (m + 2) t)^[k] arr).getD (m + 1) 0 =
      (arr.take (m + 2)).getD (m + 1 - k) 0 := by
  obtain ⟨-, htake, -⟩ := odd_state_facts arr m k hlen
  have hslen := (odd_state_facts arr m k hlen).1
  have htl : (arr.take (m + 2)).length = m + 2 :=
    take_length_eq (m + 2) arr hlen
  have hm1 : m + 1 < ((fun t => rotFront (m + 2) t)^[k] arr).length := by
    rw [hslen]; omega
  have hgetTake : ((fun t => rotFront (m + 2) t)^[k] arr).getD (m + 1) 0 =
      (((fun t => rotFront (m + 2) t)^[k] arr).take (m + 2)).getD (m + 1) 0
      := by
    rw [List.getD_eq_getElem _ 0 hm1]
    have hm2 : m + 1 <
        (((fun t => rotFront (m + 2) t)^[k] arr).take (m + 2)).length := by
      rw [List.length_take]
      omega
    rw [List.getD_eq_getElem _ 0 hm2]
    rw [List.getElem_take]
  rw [hgetTake, htake]
  have hidx : m + 1 < ((arr.take (m + 2)).rotate ((m + 1) * k)).length := by
    simp [htl]
  rw [List.getD_eq_getElem _ 0 hidx, List.getElem_rotate]
  have hsub : m + 1 - k < m + 2 := by omega
  rw [List.getD_eq_getElem _ 0 (by rw [htl]; omega)]
  congr 1
  rw [htl]
  obtain ⟨d, hd⟩ : ∃ d, k + d = m + 1 := ⟨m + 1 - k, by omega⟩
  have hsplit : m + 1 + (m + 1) * k = (m + 2) * k + d := by
    have h1 : (m + 2) * k = (m + 1) * k + k := by ring
    rw [h1]
    omega
  rw [hsplit, Nat.mul_add_mod, Nat.mod_eq_of_lt (by omega)]
  omega

theorem cf_facts (w : List Int) (z : Int) (r : List Int) (m k : Nat)
    (hw : w.length = m + 1) (hk1 : 1 ≤ k) (hkm : k ≤ m + 1) :
    (z :: (w.take (k - 1) ++ (w.drop k ++ (w.getD (k - 1) 0 :: r)))).length
      = m + 2 + r.length ∧
    (z :: (w.take (k - 1) ++
      (w.drop k ++ (w.getD (k - 1) 0 :: r)))).drop (m + 2) = r ∧
    ((z :: (w.take (k - 1) ++
      (w.drop k ++ (w.getD (k - 1) 0 :: r)))).take (m + 2)).Perm
      (w ++ [z]) ∧
    (z :: (w.take (k - 1) ++
      (w.drop k ++ (w.getD (k - 1) 0 :: r)))).getD (m + 1) 0 =
      w.getD (k - 1) 0 := by
  obtain ⟨i, rfl⟩ : ∃ i, k = i + 1 := ⟨k - 1, by omega⟩
  simp only [Nat.add_sub_cancel]
  have hA : (w.take i).length = i := take_length_eq i w (by omega)
  have hB : (w.drop (i + 1)).length = m - i := by
    rw [List.length_drop, hw]; omega
  have hAB : (w.take i ++ w.drop (i + 1)).length = m := by
    rw [List.length_append, hA, hB]; omega
  have hassoc : w.take i ++ (w.drop (i + 1) ++ (w.getD i 0 :: r)) =
      (w.take i ++ w.drop (i + 1)) ++ (w.getD i 0 :: r) := by
    simp
  have htk : w.take (i + 1) = w.take i ++ [w.getD i 0] := by
    have hiw : i < w.length := by omega
    rw [List.getD_eq_getElem w 0 hiw, List.take_succ,
      List.getElem?_eq_getElem hiw]
    rfl
  have hwsplit : w = (w.take i ++ [w.getD i 0]) ++ w.drop (i + 1) := by
    rw [← htk, List.take_append_drop]
  refine ⟨?_, ?_, ?_, ?_⟩
  · rw [hassoc]
    simp [hAB]
    omega
  · rw [hassoc]
    rw [show (z :: ((w.take i ++ w.drop (i + 1)) ++
        (w.getD i 0 :: r))).drop (m + 2) =
      ((w.take i ++ w.drop (i + 1)) ++
        (w.getD i 0 :: r)).drop (m + 1) from rfl]
    rw [show m + 1 = (w.take i ++ w.drop (i + 1)).length + 1 by rw [hAB]]
    rw [List.drop_append]
    rfl
  · rw [hassoc]
    rw [show (z :: ((w.take i ++ w.drop (i + 1)) ++
        (w.getD i 0 :: r))).take (m + 2) =
      z :: (((w.take i ++ w.drop (i + 1)) ++
        (w.getD i 0 :: r)).take (m + 1)) from rfl]
    rw [show m + 1 = (w.take i ++ w.drop (i + 1)).length + 1 by rw [hAB]]
    rw [List.take_append]
    rw [show (w.getD i 0 :: r).take 1 = [w.getD i 0] from rfl]
    have h1 : (w ++ [z]).Perm
        (z :: ((w.take i ++ [w.getD i 0]) ++ w.drop (i + 1))) := by
      rw [← hwsplit]
      exact List.perm_append_singleton z w
    have h2 : ((w.take i ++ w.drop (i + 1)) ++ [w.getD i 0]).Perm
        ((w.take i ++ [w.getD i 0]) ++ w.drop (i + 1)) := by
      rw [List.append_assoc, List.append_assoc]
      exact List.Perm.append_left (w.take i) List.perm_append_comm
    exact ((h2.cons z).trans h1.symm).symm.symm
  · rw [hassoc]
    rw [List.getD_cons_succ]
    rw [show m = (w.take i ++ w.drop (i + 1)).length + 0 by rw [hAB]; omega]
    rw [List.getD_append_right _ _ 0 _ (by omega)]
    simp

theorem flatMap_congr_mem {α β : Type} (l : List α) (f g : α → List β)
    (h : ∀ a ∈ l, f a = g a) : l.flatMap f = l.flatMap g := by
  induction l with
  | nil => rfl
  | cons a l ih =>
    rw [List.flatMap_cons, List.flatMap_cons, h a (by simp),
      ih fun x hx => h x (by simp [hx])]

theorem take_two_split (l : List Int) (m : Nat) :
    l.take (m + 2) = l.take (m + 1) ++ (l.drop (m + 1)).take 1 := by
  rw [show m + 2 = (m + 1) + 1 by omega]
  exact List.take_add l (m + 1) 1

theorem drop_two_split (l : List Int) (m : Nat) :
    l.drop (m + 2) = (l.drop (m + 1)).drop 1 := by
  rw [List.drop_drop]

/-- The combined specification of `permHelper`: the final array contents
(`permFinal`), the number of emitted permutations (`n!`), the frame of
each emission (it permutes the first `n` entries and leaves the rest),
and distinctness of the emissions when the first `n` entries have no
duplicate value. -/
theorem permHelper_spec : ∀ (n : Nat) (arr : List Int), n ≤ arr.length →
    (permHelper n arr).2 = permFinal n arr ∧
    (permHelper n arr).1.length = (if n = 0 then 0 else n.factorial) ∧
    (∀ e ∈ (permHelper n arr).1, e.length = arr.length ∧
      e.drop n = arr.drop n ∧ (e.take n).Perm (arr.take n)) ∧
    ((arr.take n).Nodup → (permHelper n arr).1.Nodup) := by
  intro n
  induction n using Nat.strong_induction_on with
  | _ n ih =>
    rcases n with _ | _ | m
    · intro arr _
      refine ⟨?_, by simp [permHelper], by simp [permHelper],
        by simp [permHelper]⟩
      rw [permFinal, if_neg (by omega)]
      rfl
    · intro arr _
      refine ⟨?_, by simp [permHelper, Nat.factorial], ?_,
        by simp [permHelper]⟩
      · rw [permFinal, if_neg (by omega)]
        rfl
      · intro e he
        rw [show (permHelper 1 arr).1 = [arr] from rfl,
          List.mem_singleton] at he
        subst he
        exact ⟨rfl, rfl, List.Perm.refl _⟩
    · intro arr hlen
      rw [show m + 1 + 1 = m + 2 from rfl] at hlen ⊢
      have IH := ih (m + 1) (by omega)
      have hstepA : ∀ s : List Int, s.length = arr.length →
          (permHelper (m + 1) s).2 = permFinal (m + 1) s :=
        fun s hs => (IH s (by omega)).1
      have hstepB : ∀ s : List Int, s.length = arr.length →
          (permHelper (m + 1) s).1.length = (m + 1).factorial := by
        intro s hs
        have hfac := (IH s (by omega)).2.1
        rwa [if_neg (by omega)] at hfac
      have hstepC : ∀ s : List Int, s.length = arr.length →
          ∀ e ∈ (permHelper (m + 1) s).1, e.length = s.length ∧
            e.drop (m + 1) = s.drop (m + 1) ∧
            (e.take (m + 1)).Perm (s.take (m + 1)) :=
        fun s hs => (IH s (by omega)).2.2.1
      have hstepD : ∀ s : List Int, s.length = arr.length →
          (s.take (m + 1)).Nodup → (permHelper (m + 1) s).1.Nodup :=
        fun s hs => (IH s (by omega)).2.2.2
      have hperm : permHelper (m + 2) arr =
          permLoop (permHelper (m + 1)) (m + 2) (List.range (m + 2)) arr :=
        rfl
      have htlen : (arr.take (m + 2)).length = m + 2 :=
        take_length_eq (m + 2) arr hlen
      by_cases hpar : (m + 2) % 2 = 1
      · -- odd level: every iteration rotates the first m+2 entries
        have hstep2 : ∀ s : List Int, s.length = arr.length →
            (permHelper (m + 1) s).2 = rotFront (m + 1) s := by
          intro s hs
          rw [hstepA s hs, permFinal, if_pos ⟨by omega, by omega⟩]
        have hodd := permLoop_odd (permHelper (m + 1)) (m + 2) arr.length
          hpar (by omega) hlen hstep2 (List.range (m + 2)) arr rfl
        rw [List.length_range] at hodd
        rw [hperm, hodd]
        refine ⟨?_, ?_, ?_, ?_⟩
        · show (fun t => rotFront (m + 2) t)^[m + 2] arr =
            permFinal (m + 2) arr
          rw [rotFront_iterate_full (m + 2) arr hlen, permFinal,
            if_neg (by omega)]
        · show ((List.range (m + 2)).flatMap _).length = _
          rw [if_neg (by omega)]
          rw [flatMap_length_const _ _ ((m + 1).factorial) (fun k _ =>
            hstepB _ (odd_state_facts arr m k hlen).1)]
          rw [List.length_range]
          rfl
        · intro e he
          rw [show ((List.range (m + 2)).flatMap fun k =>
              (permHelper (m + 1)
                ((fun t => rotFront (m + 2) t)^[k] arr)).1,
              (fun t => rotFront (m + 2) t)^[m + 2] arr).1 =
            (List.range (m + 2)).flatMap (fun k =>
              (permHelper (m + 1)
                ((fun t => rotFront (m + 2) t)^[k] arr)).1) from rfl] at he
          obtain ⟨k, hkmem, hein⟩ := List.mem_flatMap.mp he
          obtain ⟨hklen, hktake, hkdrop⟩ := odd_state_facts arr m k hlen
          obtain ⟨helen, hedrop, hetake⟩ := hstepC _ hklen e hein
          refine ⟨by rw [helen, hklen], ?_, ?_⟩
          · rw [drop_two_split e m, hedrop, ← drop_two_split _ m, hkdrop]
          · rw [take_two_split e m, hedrop]
            refine (hetake.append (List.Perm.refl _)).trans ?_
            rw [← take_two_split _ m, hktake]
            exact List.rotate_perm _ _
        · intro hnd
          show ((List.range (m + 2)).flatMap fun k =>
            (permHelper (m + 1)
              ((fun t => rotFront (m + 2) t)^[k] arr)).1).Nodup
          rw [show ((List.range (m + 2)).flatMap fun k =>
              (permHelper (m + 1)
                ((fun t => rotFront (m + 2) t)^[k] arr)).1) =
            ((List.range (m + 2)).map fun k =>
              (permHelper (m + 1)
                ((fun t => rotFront (m + 2) t)^[k] arr)).1).flatten
            from rfl]
          refine List.nodup_flatten.mpr ⟨?_, ?_⟩
          · intro b hb
            obtain ⟨k, hkmem, rfl⟩ := List.mem_map.mp hb
            obtain ⟨hklen, hktake, hkdrop⟩ := odd_state_facts arr m k hlen
            apply hstepD _ hklen
            have h1 : (((fun t => rotFront (m + 2) t)^[k] arr).take
                (m + 2)).Nodup := by
              rw [hktake]
              exact ((List.rotate_perm _ _).nodup_iff).mpr hnd
            have h2 : ((fun t => rotFront (m + 2) t)^[k] arr).take (m + 1)
                = (((fun t => rotFront (m + 2) t)^[k] arr).take
                    (m + 2)).take (m + 1) := by
              rw [List.take_take, min_eq_left (by omega)]
            rw [h2]
            exact List.Nodup.sublist (List.take_sublist _ _) h1
          · rw [List.pairwise_map]
            refine List.Pairwise.imp_of_mem ?_
              (List.sorted_lt_range (m + 2))
            intro a b ha hb hab e hea heb
            have ha1 : a ≤ m + 1 := by
              have := List.mem_range.mp ha; omega
            have hb1 : b ≤ m + 1 := by
              have := List.mem_range.mp hb; omega
            have hda := (hstepC _ (odd_state_facts arr m a hlen).1
              e hea).2.1
            have hdb := (hstepC _ (odd_state_facts arr m b hlen).1
              e heb).2.1
            have hlast : ((fun t => rotFront (m + 2) t)^[a] arr).getD
                (m + 1) 0 =
                ((fun t => rotFront (m + 2) t)^[b] arr).getD (m + 1) 0 := by
              rw [getD_zero_drop ((fun t => rotFront (m + 2) t)^[a] arr)
                  (m + 1),
                getD_zero_drop ((fun t => rotFront (m + 2) t)^[b] arr)
                  (m + 1),
                ← hda, ← hdb]
            rw [odd_state_last arr m a hlen ha1,
              odd_state_last arr m b hlen hb1] at hlast
            rw [List.getD_eq_getElem (arr.take (m + 2)) 0
                (show m + 1 - a < (arr.take (m + 2)).length by
                  rw [htlen]; omega),
              List.getD_eq_getElem (arr.take (m + 2)) 0
                (show m + 1 - b < (arr.take (m + 2)).length by
                  rw [htlen]; omega)] at hlast
            have hij := (List.Nodup.getElem_inj_iff hnd).mp hlast
            omega
      · -- even level: recursive calls leave the array unchanged,
        -- the loop walks the closed-form states
        have hpar0 : (m + 2) % 2 = 0 := by omega
        have hrlen : (arr.drop (m + 2)).length = arr.length - (m + 2) := by
          rw [List.length_drop]
        have hstep2 : ∀ s : List Int,
            s.length = m + 2 + (arr.drop (m + 2)).length →
            (permHelper (m + 1) s).2 = s := by
          intro s hs
          have hs' : s.length = arr.length := by
            rw [hs, hrlen]; omega
          rw [hstepA s hs', permFinal, if_neg (by omega)]
        have hw : (arr.take (m + 1)).length = m + 1 :=
          take_length_eq (m + 1) arr (by omega)
        have hm2 : m + 1 < arr.length := by omega
        have harr : arr = arr.take (m + 1) ++
            (arr.getD (m + 1) 0 :: arr.drop (m + 2)) := by
          conv_lhs => rw [← List.take_append_drop (m + 1) arr]
          congr 1
          rw [List.getD_eq_getElem arr 0 hm2]
          rw [List.drop_eq_getElem_cons hm2]
        have htake2 : arr.take (m + 2) =
            arr.take (m + 1) ++ [arr.getD (m + 1) 0] := by
          rw [List.getD_eq_getElem arr 0 hm2, List.take_succ,
            List.getElem?_eq_getElem hm2]
          rfl
        have hrange : List.range (m + 2) = 0 :: List.range' 1 (m + 1) := by
          rw [List.range_eq_range']
          rfl
        have harrlen : arr.length = m + 2 + (arr.drop (m + 2)).length := by
          rw [hrlen]; omega
        have hentry : listSwap (permHelper (m + 1) arr).2 0 (m + 2 - 1) =
            arr.getD (m + 1) 0 :: ((arr.take (m + 1)).take 0 ++
              ((arr.take (m + 1)).drop 1 ++
                ((arr.take (m + 1)).getD 0 0 :: arr.drop (m + 2)))) := by
          rw [hstep2 arr harrlen]
          rw [show m + 2 - 1 = m + 1 from rfl]
          conv_lhs => rw [harr]
          exact listSwap_entry (arr.take (m + 1)) (arr.getD (m + 1) 0)
            (arr.drop (m + 2)) m hw
        have hcf := permLoop_even_cf (permHelper (m + 1)) m
          (arr.take (m + 1)) (arr.getD (m + 1) 0) (arr.drop (m + 2))
          hpar0 hw hstep2 (m + 1) 1 (le_refl 1) (by omega) (by omega)
        simp only [Nat.sub_self] at hcf
        rw [hperm, hrange, permLoop_cons_even _ _ hpar0 _ _ _, hentry, hcf]
        set w : List Int := arr.take (m + 1) with hwdef
        set z : Int := arr.getD (m + 1) 0 with hzdef
        set r : List Int := arr.drop (m + 2) with hrdef
        have hcflen : ∀ k, 1 ≤ k → k ≤ m + 1 →
            (z :: (w.take (k - 1) ++
              (w.drop k ++ (w.getD (k - 1) 0 :: r)))).length =
            arr.length := by
          intro k hk1 hkm
          rw [(cf_facts w z r m k hw hk1 hkm).1, hrlen]
          omega
        have hndtake : (arr.take (m + 2)).Nodup → (w ++ [z]).Nodup :=
          fun h => htake2 ▸ h
        refine ⟨?_, ?_, ?_, ?_⟩
        · show z :: (w.take m ++ (w.drop (m + 1) ++ (w.getD m 0 :: r))) =
            permFinal (m + 2) arr
          have hdw : w.drop (m + 1) = [] := by
            rw [← hw, List.drop_length]
          have hm' : m < w.length := by rw [hw]; omega
          have htw : w.take m ++ [w.getD m 0] = w := by
            rw [List.getD_eq_getElem _ 0 hm',
              show ([w[m]] : List Int) = (w[m]?).toList by
                rw [List.getElem?_eq_getElem hm']
                rfl,
              ← List.take_succ]
            rw [← hw, List.take_length]
          rw [permFinal, if_pos ⟨hpar0, by omega⟩, rotFront,
            show m + 2 - 1 = m + 1 from rfl, htake2,
            List.rotate_eq_drop_append_take
              (by rw [List.length_append, hw]; simp),
            List.drop_left' hw, List.take_left' hw, hdw]
          rw [show (w.getD m 0 :: r) = [w.getD m 0] ++ r from rfl,
            List.nil_append, ← List.append_assoc, htw]
          rfl
        · show ((permHelper (m + 1) arr).1 ++
            ((List.range' 1 (m + 1)).flatMap fun k =>
              (permHelper (m + 1) (z :: (w.take (k - 1) ++
                (w.drop k ++ (w.getD (k - 1) 0 :: r))))).1)).length = _
          rw [if_neg (by omega), List.length_append, hstepB arr rfl,
            flatMap_length_const _ _ ((m + 1).factorial) (fun k hk => by
              have hk' := List.mem_range'_1.mp hk
              exact hstepB _ (hcflen k hk'.1 (by omega)))]
          rw [List.length_range',
            show (m + 2).factorial = (m + 2) * (m + 1).factorial from rfl]
          ring
        · intro e he
          rcases List.mem_append.mp he with he0 | heF
          · obtain ⟨helen, hedrop, hetake⟩ := hstepC arr rfl e he0
            refine ⟨helen, ?_, ?_⟩
            · rw [drop_two_split e m, hedrop, ← drop_two_split arr m]
            · rw [take_two_split e m, hedrop]
              refine (hetake.append (List.Perm.refl _)).trans ?_
              rw [← take_two_split arr m]
          · obtain ⟨k, hkmem, hein⟩ := List.mem_flatMap.mp heF
            have hk' := List.mem_range'_1.mp hkmem
            have hk1 : 1 ≤ k := hk'.1
            have hkm : k ≤ m + 1 := by omega
            have hfacts := cf_facts w z r m k hw hk1 hkm
            obtain ⟨helen, hedrop, hetake⟩ :=
              hstepC _ (hcflen k hk1 hkm) e hein
            refine ⟨by rw [helen, hcflen k hk1 hkm], ?_, ?_⟩
            · rw [drop_two_split e m, hedrop, ← drop_two_split _ m,
                hfacts.2.1, hrdef]
            · rw [take_two_split e m, hedrop]
              refine (hetake.append (List.Perm.refl _)).trans ?_
              rw [← take_two_split _ m, htake2]
              exact hfacts.2.2.1
        · intro hnd
          obtain ⟨hndw, -, hdisj⟩ := List.nodup_append.mp (hndtake hnd)
          have hflat : (permHelper (m + 1) arr).1 ++
              ((List.range' 1 (m + 1)).flatMap fun k =>
                (permHelper (m + 1) (z :: (w.take (k - 1) ++
                  (w.drop k ++ (w.getD (k - 1) 0 :: r))))).1) =
              ((List.range (m + 2)).map fun k =>
                (permHelper (m + 1) (if k = 0 then arr else
                  z :: (w.take (k - 1) ++
                    (w.drop k ++ (w.getD (k - 1) 0 :: r))))).1).flatten := by
            rw [show ((List.range (m + 2)).map fun k =>
                (permHelper (m + 1) (if k = 0 then arr else
                  z :: (w.take (k - 1) ++
                    (w.drop k ++ (w.getD (k - 1) 0 :: r))))).1).flatten =
              (List.range (m + 2)).flatMap fun k =>
                (permHelper (m + 1) (if k = 0 then arr else
                  z :: (w.take (k - 1) ++
                    (w.drop k ++ (w.getD (k - 1) 0 :: r))))).1 from rfl]
            rw [hrange, List.flatMap_cons]
            congr 1
            exact flatMap_congr_mem _ _ _ (fun k hk => by
              have hk1 := (List.mem_range'_1.mp hk).1
              rw [if_neg (by omega)])
          rw [hflat]
          refine List.nodup_flatten.mpr ⟨?_, ?_⟩
          · intro b hb
            obtain ⟨k, hkmem, rfl⟩ := List.mem_map.mp hb
            by_cases hk0 : k = 0
            · subst hk0
              rw [if_pos rfl]
              apply hstepD arr rfl
              have h2 : arr.take (m + 1) = (arr.take (m + 2)).take (m + 1) := by
                rw [List.take_take, min_eq_left (by omega)]
              rw [h2]
              exact List.Nodup.sublist (List.take_sublist _ _) hnd
            · rw [if_neg hk0]
              have hk1 : 1 ≤ k := by omega
              have hkm : k ≤ m + 1 := by
                have := List.mem_range.mp hkmem; omega
              apply hstepD _ (hcflen k hk1 hkm)
              have h1 : ((z :: (w.take (k - 1) ++
                  (w.drop k ++ (w.getD (k - 1) 0 :: r)))).take
                    (m + 2)).Nodup :=
                ((cf_facts w z r m k hw hk1 hkm).2.2.1.nodup_iff).mpr
                  (hndtake hnd)
              have h2 : (z :: (w.take (k - 1) ++
                  (w.drop k ++ (w.getD (k - 1) 0 :: r)))).take (m + 1) =
                  ((z :: (w.take (k - 1) ++
                    (w.drop k ++ (w.getD (k - 1) 0 :: r)))).take
                      (m + 2)).take (m + 1) := by
                conv_rhs => rw [List.take_take]
                rw [min_eq_left (by omega)]
              rw [h2]
              exact List.Nodup.sublist (List.take_sublist _ _) h1
          · rw [List.pairwise_map]
            refine List.Pairwise.imp_of_mem ?_
              (List.sorted_lt_range (m + 2))
            intro a b ha hb hab e hea heb
            have hbm : b ≤ m + 1 := by
              have := List.mem_range.mp hb; omega
            have hb1 : 1 ≤ b := by omega
            have hlenSa : (if a = 0 then arr else
                z :: (w.take (a - 1) ++
                  (w.drop a ++ (w.getD (a - 1) 0 :: r)))).length =
                arr.length := by
              by_cases h : a = 0
              · rw [if_pos h]
              · rw [if_neg h]
                exact hcflen a (by omega)
                  (by have := List.mem_range.mp ha; omega)
            have hlenSb : (if b = 0 then arr else
                z :: (w.take (b - 1) ++
                  (w.drop b ++ (w.getD (b - 1) 0 :: r)))).length =
                arr.length := by
              rw [if_neg (by omega)]
              exact hcflen b hb1 hbm
            have hda := (hstepC _ hlenSa e hea).2.1
            have hdb := (hstepC _ hlenSb e heb).2.1
            have hlast : (if a = 0 then arr else
                z :: (w.take (a - 1) ++
                  (w.drop a ++ (w.getD (a - 1) 0 :: r)))).getD (m + 1) 0 =
                (if b = 0 then arr else
                  z :: (w.take (b - 1) ++
                    (w.drop b ++ (w.getD (b - 1) 0 :: r)))).getD
                  (m + 1) 0 := by
              rw [getD_zero_drop (if a = 0 then arr else
                  z :: (w.take (a - 1) ++
                    (w.drop a ++ (w.getD (a - 1) 0 :: r)))) (m + 1),
                getD_zero_drop (if b = 0 then arr else
                  z :: (w.take (b - 1) ++
                    (w.drop b ++ (w.getD (b - 1) 0 :: r)))) (m + 1),
                ← hda, ← hdb]
            rw [if_neg (show ¬b = 0 by omega),
              (cf_facts w z r m b hw hb1 hbm).2.2.2] at hlast
            have hbw : b - 1 < w.length := by rw [hw]; omega
            by_cases ha0 : a = 0
            · rw [if_pos ha0] at hlast
              rw [List.getD_eq_getElem _ 0 hbw] at hlast
              apply hdisj ?_ (List.mem_singleton.mpr rfl)
              rw [← hzdef] at hlast
              rw [hlast]
              exact List.getElem_mem hbw
            · have ha1 : 1 ≤ a := by omega
              have ham : a ≤ m + 1 := by
                have := List.mem_range.mp ha; omega
              rw [if_neg ha0,
                (cf_facts w z r m a hw ha1 ham).2.2.2] at hlast
              have haw : a - 1 < w.length := by rw [hw]; omega
              rw [List.getD_eq_getElem _ 0 haw,
                List.getD_eq_getElem _ 0 hbw] at hlast
              have hij := (List.Nodup.getElem_inj_iff hndw).mp hlast
              omega

/-- C7: for every input list of length M with 1 ≤ M ≤ 8, `permutations`
returns exactly M! entries; the entries are pairwise distinct as ordered
sequences whenever the input values are pairwise distinct. (The
distinctness half of the original claim fails for inputs with repeated
values; see the counterexample.) -/
theorem C7_permutations_count_distinct (nums : List Int)
    (h1 : 1 ≤ nums.length) (h8 : nums.length ≤ 8) :
    (permutations nums).length = nums.length.factorial ∧
    (nums.Nodup → (permutations nums).Nodup) := by
  have hs := permHelper_spec nums.length nums (le_refl _)
  refine ⟨?_, fun hnd => hs.2.2.2 (by rw [List.take_length]; exact hnd)⟩
  rw [permutations, hs.2.1, if_neg (by omega)]

/-- C7 counterexample: the input `[1, 1]` has length 2 (within the claimed
range 1 ≤ M ≤ 8), yet the two entries `permutations` returns coincide, so
they are not "all distinct as ordered sequences". -/
theorem C7_duplicates_not_distinct :
    1 ≤ ([1, 1] : List Int).length ∧ ([1, 1] : List Int).length ≤ 8 ∧
    permutations [1, 1] = [[1, 1], [1, 1]] ∧
    ¬ (permutations [1, 1]).Nodup := by decide

/-- Witness for C7 at the concrete input `[3, 7]`. -/
theorem C7_witness :
    (permutations [3, 7]).length = Nat.factorial 2 ∧
    (permutations [3, 7]).Nodup :=
  ⟨(C7_permutations_count_distinct [3, 7] (by decide) (by decide)).1,
   (C7_permutations_count_distinct [3, 7] (by decide) (by decide)).2
     (by decide)⟩
